import Mathlib

/-!
Verification of the MCTS/UCT search engine and self-play driver of
MonteCarlo.py (TakZeropy).  The game-rules engine (board.py) is external
per the design; it is modelled as a record of capabilities, and the
random source as an explicit stream of natural numbers consumed one value
per call.  Loops that are not structurally bounded in the source (the
random rollout to a terminal position, the tree descent, the self-play
game loop) are given explicit fuel; exhausted fuel, like the runtime
errors of the source (indexing an empty list, choosing from an empty
list), is modelled as a None outcome.
-/

set_option maxHeartbeats 1600000

namespace TakZero

/-- One insertion step of a stable ascending sort keyed by a function into
a linear order: the element is placed before the first position whose key
is greater than or equal to its own key.  This reproduces the placement of
the stable ascending sort performed by the Python builtin sorted. -/
def insertKeyed {α κ : Type} [LinearOrder κ] (key : α → κ) (a : α) : List α → List α
  | [] => [a]
  | b :: l => if key a ≤ key b then a :: b :: l else b :: insertKeyed key a l

/-- Stable ascending sort by a key function, as performed by the Python
builtin sorted with a key argument. -/
def pySorted {α κ : Type} [LinearOrder κ] (key : α → κ) : List α → List α
  | [] => []
  | a :: l => insertKeyed key a (pySorted key l)

theorem insertKeyed_ne_nil {α κ : Type} [LinearOrder κ] (key : α → κ) (a : α) (l : List α) :
    insertKeyed key a l ≠ [] := by
  cases l with
  | nil => simp [insertKeyed]
  | cons b t =>
    simp only [insertKeyed]
    by_cases h : key a ≤ key b
    · simp [h]
    · simp [h]

theorem insertKeyed_perm {α κ : Type} [LinearOrder κ] (key : α → κ) (a : α) (l : List α) :
    (insertKeyed key a l).Perm (a :: l) := by
  induction l with
  | nil => simp [insertKeyed]
  | cons b t ih =>
    simp only [insertKeyed]
    by_cases h : key a ≤ key b
    · simp [h]
    · simp only [if_neg h]
      exact (ih.cons b).trans (List.Perm.swap a b t)

theorem pySorted_perm {α κ : Type} [LinearOrder κ] (key : α → κ) (l : List α) :
    (pySorted key l).Perm l := by
  induction l with
  | nil => simp [pySorted]
  | cons a t ih =>
    simp only [pySorted]
    exact (insertKeyed_perm key a (pySorted key t)).trans (ih.cons a)

theorem insertKeyed_pairwise {α κ : Type} [LinearOrder κ] (key : α → κ) (a : α) (l : List α)
    (h : l.Pairwise (fun x y => key x ≤ key y)) :
    (insertKeyed key a l).Pairwise (fun x y => key x ≤ key y) := by
  induction l with
  | nil => simp [insertKeyed]
  | cons b t ih =>
    simp only [insertKeyed]
    rcases List.pairwise_cons.mp h with ⟨hb, ht⟩
    by_cases hab : key a ≤ key b
    · rw [if_pos hab]
      refine List.pairwise_cons.mpr ⟨?_, h⟩
      intro x hx
      rcases List.mem_cons.mp hx with hx | hx
      · subst hx; exact hab
      · exact le_trans hab (hb x hx)
    · rw [if_neg hab]
      refine List.pairwise_cons.mpr ⟨?_, ih ht⟩
      intro x hx
      have hx' := (insertKeyed_perm key a t).mem_iff.mp hx
      rcases List.mem_cons.mp hx' with hx' | hx'
      · subst hx'
        exact le_of_lt (lt_of_not_le hab)
      · exact hb x hx'

theorem pySorted_pairwise {α κ : Type} [LinearOrder κ] (key : α → κ) (l : List α) :
    (pySorted key l).Pairwise (fun x y => key x ≤ key y) := by
  induction l with
  | nil => simp [pySorted]
  | cons a t ih => exact insertKeyed_pairwise key a (pySorted key t) ih

theorem insertKeyed_getLast?_of_le {α κ : Type} [LinearOrder κ] (key : α → κ) (a x : α)
    (l : List α) (hx : l.getLast? = some x) (hle : key a ≤ key x) :
    (insertKeyed key a l).getLast? = some x := by
  induction l with
  | nil => simp at hx
  | cons b t ih =>
    simp only [insertKeyed]
    by_cases hab : key a ≤ key b
    · rw [if_pos hab]
      rw [List.getLast?_cons_cons]
      exact hx
    · rw [if_neg hab]
      cases t with
      | nil =>
        simp only [List.getLast?_singleton] at hx
        cases hx
        exact absurd hle hab
      | cons c t' =>
        rw [List.getLast?_cons_cons] at hx
        have h2 := ih hx
        rcases List.exists_cons_of_ne_nil (insertKeyed_ne_nil key a (c :: t')) with ⟨d, t'', hd⟩
        rw [hd]
        rw [List.getLast?_cons_cons]
        rw [hd] at h2
        exact h2

theorem insertKeyed_append_of_lt {α κ : Type} [LinearOrder κ] (key : α → κ) (a : α)
    (l : List α) (h : ∀ b ∈ l, key b < key a) :
    insertKeyed key a l = l ++ [a] := by
  induction l with
  | nil => simp [insertKeyed]
  | cons b t ih =>
    simp only [insertKeyed]
    have hb : key b < key a := h b (by simp)
    rw [if_neg (not_le_of_lt hb)]
    rw [ih (fun c hc => h c (by simp [hc]))]
    simp

/-- Characterisation of taking the last element of the stable ascending
sort of a non-empty list: it is an element of maximal key, and every
element strictly after its (original) position has a strictly smaller
key, i.e. it is the latest element attaining the maximal key. -/
theorem pySorted_getLast_spec {α κ : Type} [LinearOrder κ] (key : α → κ) (l : List α)
    (h : l ≠ []) :
    ∃ x l1 l2, (pySorted key l).getLast? = some x ∧ l = l1 ++ x :: l2 ∧
      (∀ b ∈ l1, key b ≤ key x) ∧ (∀ b ∈ l2, key b < key x) := by
  induction l with
  | nil => exact absurd rfl h
  | cons a t ih =>
    cases t with
    | nil =>
      refine ⟨a, [], [], ?_, by simp, by simp, by simp⟩
      simp [pySorted, insertKeyed]
    | cons b t' =>
      rcases ih (by simp) with ⟨x, l1, l2, hlast, hdecomp, hle, hlt⟩
      by_cases hax : key a ≤ key x
      · refine ⟨x, a :: l1, l2, ?_, by rw [hdecomp]; rfl, ?_, hlt⟩
        · show (insertKeyed key a (pySorted key (b :: t'))).getLast? = some x
          exact insertKeyed_getLast?_of_le key a x _ hlast hax
        · intro c hc
          rcases List.mem_cons.mp hc with hc | hc
          · subst hc; exact hax
          · exact hle c hc
      · have hxa : key x < key a := lt_of_not_le hax
        refine ⟨a, [], b :: t', ?_, by simp, by simp, ?_⟩
        · show (insertKeyed key a (pySorted key (b :: t'))).getLast? = some a
          have hall : ∀ c ∈ pySorted key (b :: t'), key c < key a := by
            intro c hc
            have hc' : c ∈ b :: t' := (pySorted_perm key (b :: t')).mem_iff.mp hc
            rw [hdecomp] at hc'
            rcases List.mem_append.mp hc' with hc1 | hc2
            · exact lt_of_le_of_lt (hle c hc1) hxa
            · rcases List.mem_cons.mp hc2 with hc2 | hc2
              · simpa [hc2] using hxa
              · exact lt_trans (hlt c hc2) hxa
          rw [insertKeyed_append_of_lt key a _ hall]
          simp
        · intro c hc
          rw [hdecomp] at hc
          rcases List.mem_append.mp hc with hc1 | hc2
          · exact lt_of_le_of_lt (hle c hc1) hxa
          · rcases List.mem_cons.mp hc2 with hc2 | hc2
            · simpa [hc2] using hxa
            · exact lt_trans (hlt c hc2) hxa

theorem insertKeyed_map {α β κ : Type} [LinearOrder κ] (key : α → κ) (f : β → α) (b : β)
    (l : List β) :
    (insertKeyed (fun x => key (f x)) b l).map f = insertKeyed key (f b) (l.map f) := by
  induction l with
  | nil => simp [insertKeyed]
  | cons c t ih =>
    simp only [insertKeyed, List.map_cons]
    by_cases h : key (f b) ≤ key (f c)
    · simp [h]
    · simp only [if_neg h, List.map_cons, ih]

theorem pySorted_map {α β κ : Type} [LinearOrder κ] (key : α → κ) (f : β → α) (l : List β) :
    (pySorted (fun x => key (f x)) l).map f = pySorted key (l.map f) := by
  induction l with
  | nil => simp [pySorted]
  | cons b t ih =>
    simp only [pySorted, List.map_cons]
    rw [insertKeyed_map key f b (pySorted (fun x => key (f x)) t), ih]

theorem pairwise_getLast_max {α κ : Type} [LinearOrder κ] (key : α → κ) (l : List α) (x : α)
    (hp : l.Pairwise (fun a b => key a ≤ key b)) (hx : l.getLast? = some x) :
    ∀ a ∈ l, key a ≤ key x := by
  induction l with
  | nil => simp at hx
  | cons b t ih =>
    rcases List.pairwise_cons.mp hp with ⟨hb, ht⟩
    cases t with
    | nil =>
      simp only [List.getLast?_singleton] at hx
      cases hx
      intro a ha
      rcases List.mem_cons.mp ha with ha | ha
      · subst ha; exact le_refl _
      · simp at ha
    | cons c t' =>
      rw [List.getLast?_cons_cons] at hx
      intro a ha
      rcases List.mem_cons.mp ha with ha | ha
      · subst ha
        have hcx : key c ≤ key x := ih ht hx c (by simp)
        exact le_trans (hb c (by simp)) hcx
      · exact ih ht hx a ha

/-- The capability record of the external game-rules engine (board.py,
class TakBoard), as consumed by MonteCarlo.py: legal moves, in-place move
execution (modelled functionally), the turn-owner flag, the two terminal
flags, the integer index a move carries (move under the key index), and
the numeric board encoding.  The state type, the move type and the
encoding type are parameters. -/
structure Game (σ μ π : Type) where
  get_plays : σ → List μ
  exec_move : σ → μ → σ
  player1_turn : σ → Bool
  white_win : σ → Bool
  black_win : σ → Bool
  index : μ → Nat
  get_numpy_board : σ → π

/-- A node of the UCT search tree (class Node of MonteCarlo.py): the move
that produced it (None for the root), the win accumulator, the visit
count, the not-yet-expanded moves, the captured turn-owner flag, and the
(insertion-ordered) child list.  The parent pointer of the source is not
stored: backpropagation is performed on the way out of the recursive
descent.  The win accumulator is a natural number because the source only
ever adds the booleans white_win / black_win (coerced to 0 or 1). -/
inductive Node (μ : Type) : Type where
  | mk (move : Option μ) (wins : Nat) (visits : Nat) (untriedMoves : List μ)
      (player1_turn : Bool) (childNodes : List (Node μ)) : Node μ

def Node.move {μ : Type} : Node μ → Option μ
  | .mk m _ _ _ _ _ => m

def Node.wins {μ : Type} : Node μ → Nat
  | .mk _ w _ _ _ _ => w

def Node.visits {μ : Type} : Node μ → Nat
  | .mk _ _ v _ _ _ => v

def Node.untriedMoves {μ : Type} : Node μ → List μ
  | .mk _ _ _ u _ _ => u

def Node.player1_turn {μ : Type} : Node μ → Bool
  | .mk _ _ _ _ p _ => p

def Node.childNodes {μ : Type} : Node μ → List (Node μ)
  | .mk _ _ _ _ _ c => c

/-- Node construction (Node.__init__): zero statistics, untried moves and
turn owner captured from the supplied state, no children. -/
def Node.fromState {σ μ π : Type} (g : Game σ μ π) (move : Option μ) (state : σ) : Node μ :=
  .mk move 0 0 (g.get_plays state) (g.player1_turn state) []

/-- Node.Update: one additional visit and result additional wins. -/
def Node.update {μ : Type} (n : Node μ) (result : Nat) : Node μ :=
  .mk n.move (n.wins + result) (n.visits + 1) n.untriedMoves n.player1_turn n.childNodes

/-- Sum of the visit counts of the children of a node. -/
def childVisitSum {μ : Type} (n : Node μ) : Nat :=
  (n.childNodes.map Node.visits).sum

/-- The scalar backpropagated from a terminal state: white_win as 0/1 when
the turn owner of the terminal state is player 1, else black_win as 0/1
(lines 95-98 of MonteCarlo.py). -/
def resultOf {σ μ π : Type} (g : Game σ μ π) (s : σ) : Nat :=
  if g.player1_turn s then (g.white_win s).toNat else (g.black_win s).toNat

/-- random.choice on a list, driven by one value of the random stream:
the element at position n modulo the length; None on the empty list
(where random.choice raises). -/
def pickOne {α : Type} (l : List α) (n : Nat) : Option α :=
  l[n % l.length]?

/-- The rollout loop (lines 89-90): play uniformly random legal moves
until a terminal flag is set.  The fuel bounds the number of moves; fuel
exhaustion on a non-terminal state, or an empty legal-move list on a
non-terminal state, is a None outcome.  Returns the terminal state and
the advanced random-stream position. -/
def rollout {σ μ π : Type} (g : Game σ μ π) (r : Nat → Nat) :
    Nat → σ → Nat → Option (σ × Nat)
  | 0, s, k => if g.white_win s = false ∧ g.black_win s = false then none else some (s, k)
  | fuel + 1, s, k =>
    if g.white_win s = false ∧ g.black_win s = false then
      match pickOne (g.get_plays s) (r k) with
      | none => none
      | some m => rollout g r fuel (g.exec_move s m) (k + 1)
    else some (s, k)

/-- One search iteration of UCT (lines 73-99): Select while fully expanded
and with children, then Expand one random untried move, then Rollout, then
Backpropagate one scalar result up the descent path.  The selection policy
is the parameter sel, giving the index of the chosen child (the source
uses UCTSelectChild; see uctSelIdx below).  Structural recursion on the
descent fuel dfuel; the result is the updated node, the backpropagated
scalar, and the advanced random-stream position. -/
def simulate {σ μ π : Type} [DecidableEq μ] (g : Game σ μ π) (sel : Node μ → Nat)
    (r : Nat → Nat) (rfuel : Nat) : Nat → Node μ → σ → Nat → Option (Node μ × Nat × Nat)
  | 0, _, _, _ => none
  | dfuel + 1, n, s, k =>
    if n.untriedMoves = [] then
      if n.childNodes.isEmpty then
        match rollout g r rfuel s k with
        | none => none
        | some (t, k') =>
          some (Node.mk n.move (n.wins + resultOf g t) (n.visits + 1) n.untriedMoves
            n.player1_turn n.childNodes, resultOf g t, k')
      else
        match n.childNodes[sel n % n.childNodes.length]? with
        | none => none
        | some c =>
          match c.move with
          | none => none
          | some mv =>
            match simulate g sel r rfuel dfuel c (g.exec_move s mv) k with
            | none => none
            | some (c', res, k') =>
              some (Node.mk n.move (n.wins + res) (n.visits + 1) n.untriedMoves n.player1_turn
                (n.childNodes.set (sel n % n.childNodes.length) c'), res, k')
    else
      match pickOne n.untriedMoves (r k) with
      | none => none
      | some m =>
        match rollout g r rfuel (g.exec_move s m) (k + 1) with
        | none => none
        | some (t, k') =>
          some (Node.mk n.move (n.wins + resultOf g t) (n.visits + 1) (n.untriedMoves.erase m)
            n.player1_turn
            (n.childNodes ++ [(Node.fromState g (some m) (g.exec_move s m)).update (resultOf g t)]),
            resultOf g t, k')

/-- The iteration loop of UCT (line 73): run simulate the given number of
times, starting each iteration from a fresh clone of the root state. -/
def uctLoop {σ μ π : Type} [DecidableEq μ] (g : Game σ μ π) (sel : Node μ → Nat)
    (r : Nat → Nat) (rfuel dfuel : Nat) : Nat → Node μ → σ → Nat → Option (Node μ × Nat)
  | 0, n, _, k => some (n, k)
  | i + 1, n, root, k =>
    match simulate g sel r rfuel dfuel n root k with
    | none => none
    | some (n', _, k') => uctLoop g sel r rfuel dfuel i n' root k'

/-- The UCT search (function UCT): build a fresh root node from the root
state, run itermax iterations, and return the child list of the root
sorted ascending by visit count (line 105), together with the advanced
random-stream position.  The descent fuel itermax + 1 dominates the depth
any search of itermax iterations can reach. -/
def UCTgen {σ μ π : Type} [DecidableEq μ] (g : Game σ μ π) (sel : Node μ → Nat)
    (r : Nat → Nat) (rfuel : Nat) (rootstate : σ) (itermax k : Nat) :
    Option (List (Node μ) × Nat) :=
  match uctLoop g sel r rfuel (itermax + 1) itermax (Node.fromState g none rootstate) rootstate k with
  | none => none
  | some (n, k') => some (pySorted (fun c => c.visits) n.childNodes, k')

/-- The UCB1 score of a child (line 26): wins over visits plus the square
root of twice the natural log of the parent visit count over the child
visit count. -/
noncomputable def ucb1Score {μ : Type} (parentVisits : Nat) (c : Node μ) : ℝ :=
  (c.wins : ℝ) / (c.visits : ℝ) + Real.sqrt (2 * Real.log (parentVisits : ℝ) / (c.visits : ℝ))

/-- Node.UCTSelectChild: sort the children ascending by UCB1 score with
the stable Python sort and take the last element (line 26); None when the
child list is empty (where the source indexing raises).  The function
reads the node and returns one existing child; it mutates nothing. -/
noncomputable def Node.UCTSelectChild {μ : Type} (n : Node μ) : Option (Node μ) :=
  (pySorted (ucb1Score n.visits) n.childNodes).getLast?

/-- The index of the child UCTSelectChild returns: sort the positions of
the children by the UCB1 score of the child at each position (stably, so
position order breaks ties) and take the last.  This is the selection
policy the source engine instantiates sel with. -/
noncomputable def uctSelIdx {μ : Type} (n : Node μ) : Nat :=
  ((pySorted (fun p : Nat × Node μ => ucb1Score n.visits p.2) n.childNodes.enum).getLast?.map
    Prod.fst).getD 0

/-- The UCT search engine exactly as the source runs it: UCTgen with the
UCB1 stable-sort selection policy. -/
noncomputable def UCT {σ μ π : Type} [DecidableEq μ] (g : Game σ μ π) (r : Nat → Nat)
    (rfuel : Nat) (rootstate : σ) (itermax k : Nat) : Option (List (Node μ) × Nat) :=
  UCTgen g uctSelIdx r rfuel rootstate itermax k

/-- Write the per-move win rates of the ranked children into the policy
vector (lines 125-126): entry at the index of the move of each child is
set to wins divided by visits (as exact rationals).  A child without a
move (the source root marker None) would make the source raise; this is
a None outcome. -/
def writePolicy {σ μ π : Type} (g : Game σ μ π) :
    List (Node μ) → List ℚ → Option (List ℚ)
  | [], acc => some acc
  | c :: cs, acc =>
    match c.move with
    | none => none
    | some mv => writePolicy g cs (acc.set (g.index mv) ((c.wins : ℚ) / (c.visits : ℚ)))

/-- The self-play loop of UCTPlayGame (lines 115-132), with the iteration
budget im a configuration parameter (the source fixes it to 1000) and
fuel bounding the number of plies.  Each ply: run the search, take the
move of the last element of the ranked list (line 117; indexing an empty
list raises, modelled None), build the training example from the board
encoding of the pre-move state and the policy vector of length 1575
filled with the sentinel -1.0 (lines 123-128), append it, and execute the
chosen move on the real game state.  Returns the accumulated examples
when a terminal flag stops the loop. -/
def playGame {σ μ π : Type} [DecidableEq μ] (g : Game σ μ π) (sel : Node μ → Nat)
    (r : Nat → Nat) (rfuel im : Nat) :
    Nat → σ → Nat → List (List ℚ × π) → Option (List (List ℚ × π))
  | 0, game, _, acc =>
    if g.white_win game = false ∧ g.black_win game = false then none else some acc
  | gfuel + 1, game, k, acc =>
    if g.white_win game = false ∧ g.black_win game = false then
      match UCTgen g sel r rfuel game im k with
      | none => none
      | some (cs, k') =>
        match cs.getLast? with
        | none => none
        | some c =>
          match c.move with
          | none => none
          | some m =>
            match writePolicy g cs (List.replicate 1575 (-1 : ℚ)) with
            | none => none
            | some pol =>
              playGame g sel r rfuel im gfuel (g.exec_move game m) k'
                (acc ++ [(pol, g.get_numpy_board game)])
    else some acc

/-- UCTPlayGame as the source runs it: the self-play loop from a start
state with the iteration budget 1000 and the UCB1 selection policy. -/
noncomputable def UCTPlayGame {σ μ π : Type} [DecidableEq μ] (g : Game σ μ π) (r : Nat → Nat)
    (rfuel gfuel : Nat) (start : σ) : Option (List (List ℚ × π)) :=
  playGame g uctSelIdx r rfuel 1000 gfuel start 0 []

theorem resultOf_le_one {σ μ π : Type} (g : Game σ μ π) (s : σ) : resultOf g s ≤ 1 := by
  unfold resultOf
  by_cases h : g.player1_turn s
  · rw [if_pos h]; cases g.white_win s <;> simp
  · rw [if_neg h]; cases g.black_win s <;> simp

theorem pickOne_mem {α : Type} {l : List α} {n : Nat} {a : α} (h : pickOne l n = some a) :
    a ∈ l := by
  unfold pickOne at h
  rcases List.getElem?_eq_some.mp h with ⟨hlt, he⟩
  exact he ▸ List.getElem_mem hlt

theorem getElem?_some_mem {α : Type} {l : List α} {i : Nat} {a : α} (h : l[i]? = some a) :
    a ∈ l := by
  rcases List.getElem?_eq_some.mp h with ⟨hlt, he⟩
  exact he ▸ List.getElem_mem hlt

theorem terminal_of_not_both_false {σ μ π : Type} {g : Game σ μ π} {s : σ}
    (hc : ¬(g.white_win s = false ∧ g.black_win s = false)) :
    g.white_win s = true ∨ g.black_win s = true := by
  cases hw : g.white_win s
  · cases hb : g.black_win s
    · exact absurd ⟨hw, hb⟩ hc
    · exact Or.inr rfl
  · exact Or.inl rfl

theorem rollout_terminal {σ μ π : Type} (g : Game σ μ π) (r : Nat → Nat) :
    ∀ fuel (s : σ) (k : Nat) (t : σ) (k' : Nat), rollout g r fuel s k = some (t, k') →
      g.white_win t = true ∨ g.black_win t = true := by
  intro fuel
  induction fuel with
  | zero =>
    intro s k t k' h
    simp only [rollout] at h
    by_cases hc : g.white_win s = false ∧ g.black_win s = false
    · rw [if_pos hc] at h; exact absurd h (by simp)
    · rw [if_neg hc] at h
      simp only [Option.some.injEq, Prod.mk.injEq] at h
      rcases h with ⟨h1, h2⟩
      subst h1
      exact terminal_of_not_both_false hc
  | succ fuel ih =>
    intro s k t k' h
    simp only [rollout] at h
    by_cases hc : g.white_win s = false ∧ g.black_win s = false
    · rw [if_pos hc] at h
      cases hp : pickOne (g.get_plays s) (r k) with
      | none => rw [hp] at h; exact absurd h (by simp)
      | some m =>
        rw [hp] at h
        exact ih _ _ _ _ h
    · rw [if_neg hc] at h
      simp only [Option.some.injEq, Prod.mk.injEq] at h
      rcases h with ⟨h1, h2⟩
      subst h1
      exact terminal_of_not_both_false hc

/-- Exhaustive description of a successful search iteration: it is a leaf
visit (terminal position reached inside the tree), a selection step with a
successful recursive iteration on the chosen child, or an expansion
followed by a rollout. -/
theorem simulate_succ_cases {σ μ π : Type} [DecidableEq μ] (g : Game σ μ π)
    (sel : Node μ → Nat) (r : Nat → Nat) (rfuel d : Nat) (n : Node μ) (s : σ) (k : Nat)
    (n' : Node μ) (res k' : Nat)
    (h : simulate g sel r rfuel (d + 1) n s k = some (n', res, k')) :
    (n.untriedMoves = [] ∧ n.childNodes = [] ∧
      ∃ t, rollout g r rfuel s k = some (t, k') ∧ res = resultOf g t ∧
        n' = Node.mk n.move (n.wins + res) (n.visits + 1) n.untriedMoves n.player1_turn
          n.childNodes) ∨
    (n.untriedMoves = [] ∧ n.childNodes ≠ [] ∧
      ∃ c mv c', n.childNodes[sel n % n.childNodes.length]? = some c ∧ c.move = some mv ∧
        simulate g sel r rfuel d c (g.exec_move s mv) k = some (c', res, k') ∧
        n' = Node.mk n.move (n.wins + res) (n.visits + 1) n.untriedMoves n.player1_turn
          (n.childNodes.set (sel n % n.childNodes.length) c')) ∨
    (n.untriedMoves ≠ [] ∧
      ∃ m t, pickOne n.untriedMoves (r k) = some m ∧
        rollout g r rfuel (g.exec_move s m) (k + 1) = some (t, k') ∧ res = resultOf g t ∧
        n' = Node.mk n.move (n.wins + res) (n.visits + 1) (n.untriedMoves.erase m)
          n.player1_turn
          (n.childNodes ++ [(Node.fromState g (some m) (g.exec_move s m)).update res])) := by
  simp only [simulate] at h
  by_cases hu : n.untriedMoves = []
  · rw [if_pos hu] at h
    by_cases hc : n.childNodes = []
    · left
      rw [if_pos (List.isEmpty_iff.mpr hc)] at h
      cases hr : rollout g r rfuel s k with
      | none => rw [hr] at h; exact absurd h (by simp)
      | some p =>
        rcases p with ⟨t, k2⟩
        simp only [hr, Option.some.injEq, Prod.mk.injEq] at h
        obtain ⟨h1, h2, h3⟩ := h
        subst h1; subst h2; subst h3
        exact ⟨hu, hc, t, rfl, rfl, rfl⟩
    · right; left
      rw [if_neg (by simpa [List.isEmpty_iff] using hc)] at h
      cases hg : n.childNodes[sel n % n.childNodes.length]? with
      | none =>
        simp only [hg] at h
        exact Option.noConfusion h
      | some c =>
        simp only [hg] at h
        cases hm : c.move with
        | none =>
          simp only [hm] at h
          exact Option.noConfusion h
        | some mv =>
          simp only [hm] at h
          cases hs : simulate g sel r rfuel d c (g.exec_move s mv) k with
          | none =>
            simp only [hs] at h
            exact Option.noConfusion h
          | some q =>
            rcases q with ⟨c', res2, k2⟩
            simp only [hs, Option.some.injEq, Prod.mk.injEq] at h
            obtain ⟨h1, h2, h3⟩ := h
            subst h2; subst h3; subst h1
            exact ⟨hu, hc, c, mv, c', rfl, hm, hs, rfl⟩
  · right; right
    rw [if_neg hu] at h
    cases hp : pickOne n.untriedMoves (r k) with
    | none =>
      simp only [hp] at h
      exact Option.noConfusion h
    | some m =>
      simp only [hp] at h
      cases hr : rollout g r rfuel (g.exec_move s m) (k + 1) with
      | none =>
        simp only [hr] at h
        exact Option.noConfusion h
      | some p =>
        rcases p with ⟨t, k2⟩
        simp only [hr, Option.some.injEq, Prod.mk.injEq] at h
        obtain ⟨h1, h2, h3⟩ := h
        subst h2; subst h3; subst h1
        exact ⟨hu, m, t, rfl, hr, rfl, rfl⟩

theorem simulate_zero_none {σ μ π : Type} [DecidableEq μ] (g : Game σ μ π)
    (sel : Node μ → Nat) (r : Nat → Nat) (rfuel : Nat) (n : Node μ) (s : σ) (k : Nat) :
    simulate g sel r rfuel 0 n s k = none := by
  simp [simulate]

theorem simulate_visits {σ μ π : Type} [DecidableEq μ] {g : Game σ μ π}
    {sel : Node μ → Nat} {r : Nat → Nat} {rfuel d : Nat} {n : Node μ} {s : σ} {k : Nat}
    {n' : Node μ} {res k' : Nat} (h : simulate g sel r rfuel d n s k = some (n', res, k')) :
    n'.visits = n.visits + 1 := by
  cases d with
  | zero => rw [simulate_zero_none] at h; exact absurd h (by simp)
  | succ d =>
    rcases simulate_succ_cases g sel r rfuel d n s k n' res k' h with
      ⟨_, _, t, _, _, hn⟩ | ⟨_, _, c, mv, c', _, _, _, hn⟩ | ⟨_, m, t, _, _, _, hn⟩ <;>
      rw [hn] <;> rfl

theorem simulate_wins {σ μ π : Type} [DecidableEq μ] {g : Game σ μ π}
    {sel : Node μ → Nat} {r : Nat → Nat} {rfuel d : Nat} {n : Node μ} {s : σ} {k : Nat}
    {n' : Node μ} {res k' : Nat} (h : simulate g sel r rfuel d n s k = some (n', res, k')) :
    n'.wins = n.wins + res := by
  cases d with
  | zero => rw [simulate_zero_none] at h; exact absurd h (by simp)
  | succ d =>
    rcases simulate_succ_cases g sel r rfuel d n s k n' res k' h with
      ⟨_, _, t, _, _, hn⟩ | ⟨_, _, c, mv, c', _, _, _, hn⟩ | ⟨_, m, t, _, _, _, hn⟩ <;>
      rw [hn] <;> rfl

theorem simulate_move {σ μ π : Type} [DecidableEq μ] {g : Game σ μ π}
    {sel : Node μ → Nat} {r : Nat → Nat} {rfuel d : Nat} {n : Node μ} {s : σ} {k : Nat}
    {n' : Node μ} {res k' : Nat} (h : simulate g sel r rfuel d n s k = some (n', res, k')) :
    n'.move = n.move := by
  cases d with
  | zero => rw [simulate_zero_none] at h; exact absurd h (by simp)
  | succ d =>
    rcases simulate_succ_cases g sel r rfuel d n s k n' res k' h with
      ⟨_, _, t, _, _, hn⟩ | ⟨_, _, c, mv, c', _, _, _, hn⟩ | ⟨_, m, t, _, _, _, hn⟩ <;>
      rw [hn] <;> rfl

theorem simulate_res_le {σ μ π : Type} [DecidableEq μ] {g : Game σ μ π}
    {sel : Node μ → Nat} {r : Nat → Nat} {rfuel : Nat} :
    ∀ {d : Nat} {n : Node μ} {s : σ} {k : Nat} {n' : Node μ} {res k' : Nat},
      simulate g sel r rfuel d n s k = some (n', res, k') → res ≤ 1 := by
  intro d
  induction d with
  | zero =>
    intro n s k n' res k' h
    rw [simulate_zero_none] at h; exact absurd h (by simp)
  | succ d ih =>
    intro n s k n' res k' h
    rcases simulate_succ_cases g sel r rfuel d n s k n' res k' h with
      ⟨_, _, t, _, hres, _⟩ | ⟨_, _, c, mv, c', _, _, hrec, _⟩ | ⟨_, m, t, _, _, hres, _⟩
    · exact hres ▸ resultOf_le_one g t
    · exact ih hrec
    · exact hres ▸ resultOf_le_one g t

theorem simulate_len {σ μ π : Type} [DecidableEq μ] {g : Game σ μ π}
    {sel : Node μ → Nat} {r : Nat → Nat} {rfuel d : Nat} {n : Node μ} {s : σ} {k : Nat}
    {n' : Node μ} {res k' : Nat} (h : simulate g sel r rfuel d n s k = some (n', res, k')) :
    n.childNodes.length ≤ n'.childNodes.length ∧
      n'.childNodes.length ≤ n.childNodes.length + 1 := by
  cases d with
  | zero => rw [simulate_zero_none] at h; exact absurd h (by simp)
  | succ d =>
    rcases simulate_succ_cases g sel r rfuel d n s k n' res k' h with
      ⟨_, _, t, _, _, hn⟩ | ⟨_, _, c, mv, c', _, _, _, hn⟩ | ⟨_, m, t, _, _, _, hn⟩ <;>
      rw [hn] <;> simp [Node.childNodes]

theorem simulate_len_expand {σ μ π : Type} [DecidableEq μ] {g : Game σ μ π}
    {sel : Node μ → Nat} {r : Nat → Nat} {rfuel d : Nat} {n : Node μ} {s : σ} {k : Nat}
    {n' : Node μ} {res k' : Nat} (h : simulate g sel r rfuel d n s k = some (n', res, k'))
    (hu : n.untriedMoves ≠ []) :
    n'.childNodes.length = n.childNodes.length + 1 := by
  cases d with
  | zero => rw [simulate_zero_none] at h; exact absurd h (by simp)
  | succ d =>
    rcases simulate_succ_cases g sel r rfuel d n s k n' res k' h with
      ⟨hu2, _, _⟩ | ⟨hu2, _, _⟩ | ⟨_, m, t, _, _, _, hn⟩
    · exact absurd hu2 hu
    · exact absurd hu2 hu
    · rw [hn]; simp [Node.childNodes]

theorem Node.move_mk {μ : Type} (m : Option μ) (w v : Nat) (u : List μ) (p : Bool)
    (c : List (Node μ)) : (Node.mk m w v u p c).move = m := rfl

theorem Node.wins_mk {μ : Type} (m : Option μ) (w v : Nat) (u : List μ) (p : Bool)
    (c : List (Node μ)) : (Node.mk m w v u p c).wins = w := rfl

theorem Node.visits_mk {μ : Type} (m : Option μ) (w v : Nat) (u : List μ) (p : Bool)
    (c : List (Node μ)) : (Node.mk m w v u p c).visits = v := rfl

theorem Node.untriedMoves_mk {μ : Type} (m : Option μ) (w v : Nat) (u : List μ) (p : Bool)
    (c : List (Node μ)) : (Node.mk m w v u p c).untriedMoves = u := rfl

theorem Node.player1_turn_mk {μ : Type} (m : Option μ) (w v : Nat) (u : List μ) (p : Bool)
    (c : List (Node μ)) : (Node.mk m w v u p c).player1_turn = p := rfl

theorem Node.childNodes_mk {μ : Type} (m : Option μ) (w v : Nat) (u : List μ) (p : Bool)
    (c : List (Node μ)) : (Node.mk m w v u p c).childNodes = c := rfl

attribute [simp] Node.move_mk Node.wins_mk Node.visits_mk Node.untriedMoves_mk
  Node.player1_turn_mk Node.childNodes_mk

theorem sum_map_set {α : Type} (f : α → Nat) :
    ∀ (l : List α) (i : Nat) (a b : α), l[i]? = some a →
      ((l.set i b).map f).sum + f a = (l.map f).sum + f b := by
  intro l
  induction l with
  | nil => intro i a b h; simp at h
  | cons x t ih =>
    intro i a b h
    cases i with
    | zero =>
      simp only [List.getElem?_cons_zero, Option.some.injEq] at h
      subst h
      simp only [List.set_cons_zero, List.map_cons, List.sum_cons]
      omega
    | succ i =>
      simp only [List.getElem?_cons_succ] at h
      have := ih i a b h
      simp only [List.set_cons_succ, List.map_cons, List.sum_cons]
      omega

theorem set_of_getElem? {α : Type} :
    ∀ (l : List α) (i : Nat) (a : α), l[i]? = some a → l.set i a = l := by
  intro l
  induction l with
  | nil => intro i a h; simp at h
  | cons x t ih =>
    intro i a h
    cases i with
    | zero =>
      simp only [List.getElem?_cons_zero, Option.some.injEq] at h
      subst h
      simp
    | succ i =>
      simp only [List.getElem?_cons_succ] at h
      simp only [List.set_cons_succ]
      rw [ih i a h]

theorem set_ne_nil {α : Type} (l : List α) (i : Nat) (b : α) (h : l ≠ []) :
    l.set i b ≠ [] := by
  intro hc
  have hl := List.length_set l i b
  rw [hc] at hl
  simp at hl
  exact h (List.length_eq_zero.mp hl.symm)

/-- Every child of every node of a tree has visit count at least one.
This is the structural precondition of UCTSelectChild (no division by a
zero visit count). -/
inductive Node.AllPos {μ : Type} : Node μ → Prop where
  | intro (n : Node μ) (h1 : ∀ c ∈ n.childNodes, 1 ≤ c.visits)
      (h2 : ∀ c ∈ n.childNodes, Node.AllPos c) : Node.AllPos n

theorem Node.AllPos.pos {μ : Type} {n : Node μ} (h : Node.AllPos n) :
    ∀ c ∈ n.childNodes, 1 ≤ c.visits := by
  cases h with
  | intro _ h1 _ => exact h1

theorem Node.AllPos.childrenAllPos {μ : Type} {n : Node μ} (h : Node.AllPos n) :
    ∀ c ∈ n.childNodes, Node.AllPos c := by
  cases h with
  | intro _ _ h2 => exact h2

/-- The win accumulator of every node of a tree is bounded by its visit
count. -/
inductive Node.WinsLe {μ : Type} : Node μ → Prop where
  | intro (n : Node μ) (h1 : n.wins ≤ n.visits) (h2 : ∀ c ∈ n.childNodes, Node.WinsLe c) :
      Node.WinsLe n

theorem Node.WinsLe.self {μ : Type} {n : Node μ} (h : Node.WinsLe n) : n.wins ≤ n.visits := by
  cases h with
  | intro _ h1 _ => exact h1

theorem Node.WinsLe.childrenWinsLe {μ : Type} {n : Node μ} (h : Node.WinsLe n) :
    ∀ c ∈ n.childNodes, Node.WinsLe c := by
  cases h with
  | intro _ _ h2 => exact h2

/-- The visit-count budget relation of a tree, with off the contribution
the creation of the node itself made to its visit count (0 for the root,
which is not created by an expansion, 1 for every other node): whenever a
node has children, the sum of the child visit counts plus off equals the
visit count of the node; a childless node that still has untried moves has
been visited exactly off times. -/
inductive VisitInv {μ : Type} : Nat → Node μ → Prop where
  | intro (off : Nat) (n : Node μ)
      (h1 : n.childNodes ≠ [] → childVisitSum n + off = n.visits)
      (h2 : n.childNodes = [] → n.untriedMoves ≠ [] → n.visits = off)
      (h3 : ∀ c ∈ n.childNodes, VisitInv 1 c) : VisitInv off n

/-- Membership of a node in a tree: the root itself or a node of the
subtree of one of its children. -/
inductive InTree {μ : Type} : Node μ → Node μ → Prop where
  | base (n : Node μ) : InTree n n
  | step (m c n : Node μ) (hc : c ∈ n.childNodes) (h : InTree m c) : InTree m n

theorem simulate_allPos {σ μ π : Type} [DecidableEq μ] {g : Game σ μ π}
    {sel : Node μ → Nat} {r : Nat → Nat} {rfuel : Nat} :
    ∀ (d : Nat) (n : Node μ) (s : σ) (k : Nat) (n' : Node μ) (res k' : Nat),
      simulate g sel r rfuel d n s k = some (n', res, k') → Node.AllPos n →
        Node.AllPos n' := by
  intro d
  induction d with
  | zero =>
    intro n s k n' res k' h
    rw [simulate_zero_none] at h; exact absurd h (by simp)
  | succ d ih =>
    intro n s k n' res k' h hA
    rcases simulate_succ_cases g sel r rfuel d n s k n' res k' h with
      ⟨hu, hc, t, hr, hres, hn⟩ | ⟨hu, hc, c, mv, c', hg, hm, hs, hn⟩ |
      ⟨hu, m, t, hp, hr, hres, hn⟩
    · subst hn
      exact Node.AllPos.intro _ (by simpa using hA.pos) (by simpa using hA.childrenAllPos)
    · subst hn
      have hcmem : c ∈ n.childNodes := getElem?_some_mem hg
      refine Node.AllPos.intro _ ?_ ?_
      · simp only [Node.childNodes_mk]
        intro c0 hc0
        rcases List.mem_or_eq_of_mem_set hc0 with hc0 | hc0
        · exact hA.pos c0 hc0
        · subst hc0
          have := simulate_visits hs
          omega
      · simp only [Node.childNodes_mk]
        intro c0 hc0
        rcases List.mem_or_eq_of_mem_set hc0 with hc0 | hc0
        · exact hA.childrenAllPos c0 hc0
        · subst hc0
          exact ih _ _ _ _ _ _ hs (hA.childrenAllPos c hcmem)
    · subst hn
      refine Node.AllPos.intro _ ?_ ?_
      · simp only [Node.childNodes_mk]
        intro c0 hc0
        rcases List.mem_append.mp hc0 with hc0 | hc0
        · exact hA.pos c0 hc0
        · have hc0' : c0 = (Node.fromState g (some m) (g.exec_move s m)).update res := by
            simpa using hc0
          subst hc0'
          simp [Node.fromState, Node.update]
      · simp only [Node.childNodes_mk]
        intro c0 hc0
        rcases List.mem_append.mp hc0 with hc0 | hc0
        · exact hA.childrenAllPos c0 hc0
        · have hc0' : c0 = (Node.fromState g (some m) (g.exec_move s m)).update res := by
            simpa using hc0
          subst hc0'
          exact Node.AllPos.intro _ (by simp [Node.fromState, Node.update])
            (by simp [Node.fromState, Node.update])

theorem simulate_winsLe {σ μ π : Type} [DecidableEq μ] {g : Game σ μ π}
    {sel : Node μ → Nat} {r : Nat → Nat} {rfuel : Nat} :
    ∀ (d : Nat) (n : Node μ) (s : σ) (k : Nat) (n' : Node μ) (res k' : Nat),
      simulate g sel r rfuel d n s k = some (n', res, k') → Node.WinsLe n →
        Node.WinsLe n' := by
  intro d
  induction d with
  | zero =>
    intro n s k n' res k' h
    rw [simulate_zero_none] at h; exact absurd h (by simp)
  | succ d ih =>
    intro n s k n' res k' h hW
    have hres : res ≤ 1 := simulate_res_le h
    have hself : n.wins ≤ n.visits := hW.self
    rcases simulate_succ_cases g sel r rfuel d n s k n' res k' h with
      ⟨hu, hc, t, hr, hres2, hn⟩ | ⟨hu, hc, c, mv, c', hg, hm, hs, hn⟩ |
      ⟨hu, m, t, hp, hr, hres2, hn⟩
    · subst hn
      refine Node.WinsLe.intro _ (by simp; omega) ?_
      simpa using hW.childrenWinsLe
    · subst hn
      refine Node.WinsLe.intro _ (by simp; omega) ?_
      simp only [Node.childNodes_mk]
      intro c0 hc0
      rcases List.mem_or_eq_of_mem_set hc0 with hc0 | hc0
      · exact hW.childrenWinsLe c0 hc0
      · subst hc0
        have hcmem : c ∈ n.childNodes := getElem?_some_mem hg
        exact ih _ _ _ _ _ _ hs (hW.childrenWinsLe c hcmem)
    · subst hn
      refine Node.WinsLe.intro _ (by simp; omega) ?_
      simp only [Node.childNodes_mk]
      intro c0 hc0
      rcases List.mem_append.mp hc0 with hc0 | hc0
      · exact hW.childrenWinsLe c0 hc0
      · have hc0' : c0 = (Node.fromState g (some m) (g.exec_move s m)).update res := by
          simpa using hc0
        subst hc0'
        refine Node.WinsLe.intro _ ?_ ?_
        · simp [Node.fromState, Node.update]; omega
        · simp [Node.fromState, Node.update]

theorem simulate_visitInv {σ μ π : Type} [DecidableEq μ] {g : Game σ μ π}
    {sel : Node μ → Nat} {r : Nat → Nat} {rfuel : Nat} :
    ∀ (d : Nat) (off : Nat) (n : Node μ) (s : σ) (k : Nat) (n' : Node μ) (res k' : Nat),
      simulate g sel r rfuel d n s k = some (n', res, k') → VisitInv off n →
        VisitInv off n' := by
  intro d
  induction d with
  | zero =>
    intro off n s k n' res k' h
    rw [simulate_zero_none] at h; exact absurd h (by simp)
  | succ d ih =>
    intro off n s k n' res k' h hV
    rcases hV with ⟨off, n, hv1, hv2, hv3⟩
    rcases simulate_succ_cases g sel r rfuel d n s k n' res k' h with
      ⟨hu, hc, t, hr, hres, hn⟩ | ⟨hu, hc, c, mv, c', hg, hm, hs, hn⟩ |
      ⟨hu, m, t, hp, hr, hres, hn⟩
    · subst hn
      refine VisitInv.intro _ _ ?_ ?_ ?_
      · simp only [Node.childNodes_mk]
        intro hne
        exact absurd hc hne
      · simp only [Node.untriedMoves_mk]
        intro _ hu'
        exact absurd hu hu'
      · simp only [Node.childNodes_mk, hc]
        simp
    · subst hn
      have hcmem : c ∈ n.childNodes := getElem?_some_mem hg
      have hcv : c'.visits = c.visits + 1 := simulate_visits hs
      refine VisitInv.intro _ _ ?_ ?_ ?_
      · intro _
        have hsum := sum_map_set Node.visits n.childNodes
          (sel n % n.childNodes.length) c c' hg
        have hold := hv1 hc
        simp only [childVisitSum, Node.childNodes_mk, Node.visits_mk] at hold ⊢
        omega
      · simp only [Node.childNodes_mk]
        intro hc'
        exact absurd hc' (set_ne_nil _ _ _ hc)
      · simp only [Node.childNodes_mk]
        intro c0 hc0
        rcases List.mem_or_eq_of_mem_set hc0 with hc0 | hc0
        · exact hv3 c0 hc0
        · subst hc0
          exact ih _ _ _ _ _ _ _ hs (hv3 c hcmem)
    · subst hn
      refine VisitInv.intro _ _ ?_ ?_ ?_
      · intro _
        simp only [childVisitSum, Node.childNodes_mk, Node.visits_mk, List.map_append,
          List.sum_append]
        have hnc : ((Node.fromState g (some m) (g.exec_move s m)).update res).visits = 1 := by
          simp [Node.fromState, Node.update]
        by_cases hcn : n.childNodes = []
        · have := hv2 hcn hu
          simp only [hcn, List.map_nil, List.sum_nil, List.map_cons, List.sum_cons,
            List.map_nil, List.sum_nil, hnc]
          omega
        · have := hv1 hcn
          simp only [childVisitSum] at this
          simp only [List.map_cons, List.sum_cons, List.map_nil, List.sum_nil, hnc]
          omega
      · simp only [Node.childNodes_mk]
        intro hc'
        exact absurd hc' (by simp)
      · simp only [Node.childNodes_mk]
        intro c0 hc0
        rcases List.mem_append.mp hc0 with hc0 | hc0
        · exact hv3 c0 hc0
        · have hc0' : c0 = (Node.fromState g (some m) (g.exec_move s m)).update res := by
            simpa using hc0
          subst hc0'
          refine VisitInv.intro _ _ ?_ ?_ ?_
          · intro hne
            exact absurd (by simp [Node.fromState, Node.update]) hne
          · intro _ _
            simp [Node.fromState, Node.update]
          · simp [Node.fromState, Node.update]

/-- A property of nodes preserved by every successful search iteration is
preserved by any number of loop iterations. -/
theorem uctLoop_preserve {σ μ π : Type} [DecidableEq μ] {g : Game σ μ π}
    {sel : Node μ → Nat} {r : Nat → Nat} {rfuel dfuel : Nat} {P : Node μ → Prop}
    (hP : ∀ (d : Nat) (n : Node μ) (s : σ) (k : Nat) (n' : Node μ) (res k' : Nat),
      simulate g sel r rfuel d n s k = some (n', res, k') → P n → P n') :
    ∀ (i : Nat) (n : Node μ) (root : σ) (k : Nat) (T : Node μ) (k' : Nat),
      uctLoop g sel r rfuel dfuel i n root k = some (T, k') → P n → P T := by
  intro i
  induction i with
  | zero =>
    intro n root k T k' h hPn
    simp only [uctLoop, Option.some.injEq, Prod.mk.injEq] at h
    rcases h with ⟨h1, _⟩
    exact h1 ▸ hPn
  | succ i ih =>
    intro n root k T k' h hPn
    simp only [uctLoop] at h
    cases hs : simulate g sel r rfuel dfuel n root k with
    | none => rw [hs] at h; exact absurd h (by simp)
    | some p =>
      rcases p with ⟨n1, res1, k1⟩
      rw [hs] at h
      exact ih _ _ _ _ _ h (hP _ _ _ _ _ _ _ hs hPn)

/-- One backpropagation pass with one scalar res: the target tree is the
source tree in which every node on one descending path has its visit
count incremented by one and its win accumulator increased by the same
res, the bottom of the path being a leaf visit (nothing added), or one
newly created child holding one visit and res wins. -/
inductive BackProp {μ : Type} [DecidableEq μ] (res : Nat) : Node μ → Node μ → Prop where
  | leaf (n : Node μ) :
      BackProp res n (Node.mk n.move (n.wins + res) (n.visits + 1) n.untriedMoves
        n.player1_turn n.childNodes)
  | expand (n : Node μ) (m : μ) (c : Node μ) (hv : c.visits = 1) (hw : c.wins = res)
      (hc : c.childNodes = []) (hm : c.move = some m) :
      BackProp res n (Node.mk n.move (n.wins + res) (n.visits + 1)
        (n.untriedMoves.erase m) n.player1_turn (n.childNodes ++ [c]))
  | select (n : Node μ) (i : Nat) (c c' : Node μ) (hci : n.childNodes[i]? = some c)
      (hrec : BackProp res c c') :
      BackProp res n (Node.mk n.move (n.wins + res) (n.visits + 1) n.untriedMoves
        n.player1_turn (n.childNodes.set i c'))

/-- Every successful search iteration is one backpropagation pass whose
single scalar is the terminal result of the state the rollout reached:
white_win as 0/1 when that terminal state has the player-1 turn flag,
black_win as 0/1 otherwise, applied unchanged to every node on the path. -/
theorem simulate_backProp {σ μ π : Type} [DecidableEq μ] {g : Game σ μ π}
    {sel : Node μ → Nat} {r : Nat → Nat} {rfuel : Nat} :
    ∀ (d : Nat) (n : Node μ) (s : σ) (k : Nat) (n' : Node μ) (res k' : Nat),
      simulate g sel r rfuel d n s k = some (n', res, k') →
        (∃ t : σ, (g.white_win t = true ∨ g.black_win t = true) ∧ res = resultOf g t) ∧
          BackProp res n n' := by
  intro d
  induction d with
  | zero =>
    intro n s k n' res k' h
    rw [simulate_zero_none] at h; exact absurd h (by simp)
  | succ d ih =>
    intro n s k n' res k' h
    rcases simulate_succ_cases g sel r rfuel d n s k n' res k' h with
      ⟨hu, hc, t, hr, hres, hn⟩ | ⟨hu, hc, c, mv, c', hg, hm, hs, hn⟩ |
      ⟨hu, m, t, hp, hr, hres, hn⟩
    · subst hn
      exact ⟨⟨t, rollout_terminal g r rfuel s k t k' hr, hres⟩, BackProp.leaf n⟩
    · subst hn
      rcases ih _ _ _ _ _ _ hs with ⟨hterm, hbp⟩
      exact ⟨hterm, BackProp.select n _ c c' hg hbp⟩
    · subst hn
      refine ⟨⟨t, rollout_terminal g r rfuel _ _ t k' hr, hres⟩, ?_⟩
      refine BackProp.expand n m _ ?_ ?_ ?_ ?_ <;> simp [Node.fromState, Node.update]

/-- The account of the legal moves of the root position kept by a node:
the children carry real moves (in creation order), and those moves
together with the untried moves are a permutation of the legal moves the
node was built from. -/
def RootMoves {μ : Type} (plays0 : List μ) (n : Node μ) : Prop :=
  ∃ ms : List μ, n.childNodes.map Node.move = ms.map some ∧
    (n.untriedMoves ++ ms).Perm plays0

theorem simulate_rootMoves {σ μ π : Type} [DecidableEq μ] {g : Game σ μ π}
    {sel : Node μ → Nat} {r : Nat → Nat} {rfuel : Nat} {plays0 : List μ} :
    ∀ (d : Nat) (n : Node μ) (s : σ) (k : Nat) (n' : Node μ) (res k' : Nat),
      simulate g sel r rfuel d n s k = some (n', res, k') → RootMoves plays0 n →
        RootMoves plays0 n' := by
  intro d n s k n' res k' h hR
  rcases hR with ⟨ms, hmap, hperm⟩
  cases d with
  | zero => rw [simulate_zero_none] at h; exact absurd h (by simp)
  | succ d =>
    rcases simulate_succ_cases g sel r rfuel d n s k n' res k' h with
      ⟨hu, hc, t, hr, hres, hn⟩ | ⟨hu, hc, c, mv, c', hg, hm, hs, hn⟩ |
      ⟨hu, m, t, hp, hr, hres, hn⟩
    · subst hn
      exact ⟨ms, by simpa using hmap, by simpa using hperm⟩
    · subst hn
      refine ⟨ms, ?_, by simpa using hperm⟩
      simp only [Node.childNodes_mk, List.map_set]
      have hmove : c'.move = c.move := simulate_move hs
      have hgm : (n.childNodes.map Node.move)[sel n % n.childNodes.length]? =
          some c.move := by
        rw [List.getElem?_map, hg]
        rfl
      rw [hmove, set_of_getElem? _ _ _ hgm, hmap]
    · subst hn
      refine ⟨ms ++ [m], ?_, ?_⟩
      · simp only [Node.childNodes_mk, List.map_append, hmap]
        simp [Node.fromState, Node.update]
      · simp only [Node.untriedMoves_mk]
        have hmem : m ∈ n.untriedMoves := pickOne_mem hp
        have h1 : (n.untriedMoves.erase m ++ (ms ++ [m])).Perm
            (n.untriedMoves.erase m ++ (m :: ms)) :=
          List.Perm.append_left _ (List.perm_append_comm.trans (by simp))
        have h2 : (n.untriedMoves.erase m ++ (m :: ms)).Perm
            (m :: (n.untriedMoves.erase m ++ ms)) := List.perm_middle
        have h3 : (m :: (n.untriedMoves.erase m ++ ms)).Perm (n.untriedMoves ++ ms) := by
          have : ((m :: n.untriedMoves.erase m) ++ ms).Perm (n.untriedMoves ++ ms) :=
            List.Perm.append_right ms (List.perm_cons_erase hmem).symm
          simpa using this
        exact ((h1.trans h2).trans h3).trans hperm

theorem uctLoop_len_le {σ μ π : Type} [DecidableEq μ] {g : Game σ μ π}
    {sel : Node μ → Nat} {r : Nat → Nat} {rfuel dfuel : Nat} :
    ∀ (i : Nat) (n : Node μ) (root : σ) (k : Nat) (T : Node μ) (k' : Nat),
      uctLoop g sel r rfuel dfuel i n root k = some (T, k') →
        T.childNodes.length ≤ n.childNodes.length + i := by
  intro i
  induction i with
  | zero =>
    intro n root k T k' h
    simp only [uctLoop, Option.some.injEq, Prod.mk.injEq] at h
    rcases h with ⟨h1, _⟩
    subst h1
    simp
  | succ i ih =>
    intro n root k T k' h
    simp only [uctLoop] at h
    cases hs : simulate g sel r rfuel dfuel n root k with
    | none => rw [hs] at h; exact absurd h (by simp)
    | some p =>
      rcases p with ⟨n1, res1, k1⟩
      rw [hs] at h
      have h1 := (simulate_len hs).2
      have h2 := ih _ _ _ _ _ h
      omega

theorem uctLoop_nonempty {σ μ π : Type} [DecidableEq μ] {g : Game σ μ π}
    {sel : Node μ → Nat} {r : Nat → Nat} {rfuel dfuel : Nat} :
    ∀ (i : Nat) (n : Node μ) (root : σ) (k : Nat) (T : Node μ) (k' : Nat),
      uctLoop g sel r rfuel dfuel (i + 1) n root k = some (T, k') →
        n.untriedMoves ≠ [] → T.childNodes ≠ [] := by
  intro i n root k T k' h hu
  simp only [uctLoop] at h
  cases hs : simulate g sel r rfuel dfuel n root k with
  | none => rw [hs] at h; exact absurd h (by simp)
  | some p =>
    rcases p with ⟨n1, res1, k1⟩
    rw [hs] at h
    have h1 : n1.childNodes.length = n.childNodes.length + 1 := simulate_len_expand hs hu
    have h2 : 1 ≤ T.childNodes.length := by
      refine uctLoop_preserve (P := fun n0 => 1 ≤ n0.childNodes.length)
        (fun d0 m0 s0 k0 m0' res0 k0' hsim hge =>
          le_trans hge (simulate_len hsim).1) i n1 root k1 T k' h ?_
      omega
    intro hT
    rw [hT] at h2
    simp at h2

/-- Descent closure: a property holding at the root of a tree and passed
from every node to each of its children holds at every node of the tree. -/
theorem inTree_closed {μ : Type} {P : Node μ → Prop}
    (hP : ∀ n, P n → ∀ c ∈ n.childNodes, P c) :
    ∀ (T m : Node μ), InTree m T → P T → P m := by
  intro T m h
  induction h with
  | base => exact fun h => h
  | step c n hc h ih => exact fun hT => ih (hP n hT c hc)

theorem uctLoop_zero {σ μ π : Type} [DecidableEq μ] (g : Game σ μ π) (sel : Node μ → Nat)
    (r : Nat → Nat) (rfuel dfuel : Nat) (n : Node μ) (root : σ) (k : Nat) :
    uctLoop g sel r rfuel dfuel 0 n root k = some (n, k) := rfl

theorem UCTgen_some {σ μ π : Type} [DecidableEq μ] {g : Game σ μ π} {sel : Node μ → Nat}
    {r : Nat → Nat} {rfuel : Nat} {root : σ} {itermax k : Nat} {cs : List (Node μ)} {k' : Nat}
    (h : UCTgen g sel r rfuel root itermax k = some (cs, k')) :
    ∃ T : Node μ,
      uctLoop g sel r rfuel (itermax + 1) itermax (Node.fromState g none root) root k =
        some (T, k') ∧ cs = pySorted (fun c => c.visits) T.childNodes := by
  unfold UCTgen at h
  cases hl : uctLoop g sel r rfuel (itermax + 1) itermax (Node.fromState g none root) root k with
  | none => rw [hl] at h; exact absurd h (by simp)
  | some p =>
    rcases p with ⟨T, k2⟩
    rw [hl] at h
    simp only [Option.some.injEq, Prod.mk.injEq] at h
    rcases h with ⟨h1, h2⟩
    subst h2
    exact ⟨T, rfl, h1.symm⟩

theorem rollout_of_terminal {σ μ π : Type} (g : Game σ μ π) (r : Nat → Nat) (fuel : Nat)
    (s : σ) (k : Nat) (hterm : ¬(g.white_win s = false ∧ g.black_win s = false)) :
    rollout g r fuel s k = some (s, k) := by
  cases fuel with
  | zero => simp only [rollout]; rw [if_neg hterm]
  | succ f => simp only [rollout]; rw [if_neg hterm]

/-- On a terminal root with no legal moves, every iteration is a leaf
visit of the root alone: it backpropagates the same terminal result to
the root only, consumes no randomness, and creates no child. -/
theorem uctLoop_terminal_root {σ μ π : Type} [DecidableEq μ] (g : Game σ μ π)
    (sel : Node μ → Nat) (r : Nat → Nat) (rfuel dfuel : Nat) (root : σ)
    (hterm : ¬(g.white_win root = false ∧ g.black_win root = false)) :
    ∀ (i : Nat), 1 ≤ dfuel → ∀ (w v : Nat) (p : Bool) (k : Nat),
      uctLoop g sel r rfuel dfuel i (Node.mk none w v [] p []) root k =
        some (Node.mk none (w + i * resultOf g root) (v + i) [] p [], k) := by
  intro i
  induction i with
  | zero =>
    intro hd w v p k
    simp [uctLoop_zero]
  | succ i ih =>
    intro hd w v p k
    cases dfuel with
    | zero => exact absurd hd (by simp)
    | succ d =>
      have hsim : simulate g sel r rfuel (d + 1) (Node.mk none w v [] p []) root k =
          some (Node.mk none (w + resultOf g root) (v + 1) [] p [], resultOf g root, k) := by
        simp only [simulate, Node.untriedMoves_mk, Node.childNodes_mk, List.isEmpty_nil,
          if_true, if_pos rfl, rollout_of_terminal g r rfuel root k hterm, Node.move_mk,
          Node.wins_mk, Node.visits_mk, Node.player1_turn_mk]
      simp only [uctLoop, hsim]
      have := ih (by omega) (w + resultOf g root) (v + 1) p k
      rw [this]
      have h1 : w + resultOf g root + i * resultOf g root = w + (i + 1) * resultOf g root := by
        ring
      have h2 : v + 1 + i = v + (i + 1) := by ring
      rw [h1, h2]

theorem winsLe_inTree {μ : Type} {T m : Node μ} (hT : Node.WinsLe T) (hm : InTree m T) :
    m.wins ≤ m.visits :=
  (inTree_closed (fun _ hn c hc => hn.childrenWinsLe c hc) T m hm hT).self

theorem allPos_inTree {μ : Type} {T m : Node μ} (hT : Node.AllPos T) (hm : InTree m T) :
    ∀ c ∈ m.childNodes, 1 ≤ c.visits :=
  (inTree_closed (fun _ hn c hc => hn.childrenAllPos c hc) T m hm hT).pos

theorem VisitInv.sum {μ : Type} {off : Nat} {n : Node μ} (h : VisitInv off n)
    (hc : n.childNodes ≠ []) : childVisitSum n + off = n.visits := by
  cases h with
  | intro _ _ h1 _ _ => exact h1 hc

theorem VisitInv.childrenInv {μ : Type} {off : Nat} {n : Node μ} (h : VisitInv off n) :
    ∀ c ∈ n.childNodes, VisitInv 1 c := by
  cases h with
  | intro _ _ _ _ h3 => exact h3

theorem visitInv_inTree {μ : Type} {T m : Node μ} (hT : VisitInv 0 T) (hm : InTree m T) :
    m = T ∨ VisitInv 1 m := by
  refine inTree_closed (P := fun n => n = T ∨ VisitInv 1 n) ?_ T m hm (Or.inl rfl)
  intro n hn c hc
  rcases hn with hn | hn
  · subst hn
    exact Or.inr (hT.childrenInv c hc)
  · exact Or.inr (hn.childrenInv c hc)

theorem fromState_rootMoves {σ μ π : Type} (g : Game σ μ π) (root : σ) :
    RootMoves (g.get_plays root) (Node.fromState g none root) := by
  refine ⟨[], by simp [Node.fromState], by simp [Node.fromState]⟩

theorem fromState_allPos {σ μ π : Type} (g : Game σ μ π) (mv : Option μ) (s : σ) :
    Node.AllPos (Node.fromState g mv s) :=
  Node.AllPos.intro _ (by simp [Node.fromState]) (by simp [Node.fromState])

theorem fromState_winsLe {σ μ π : Type} (g : Game σ μ π) (mv : Option μ) (s : σ) :
    Node.WinsLe (Node.fromState g mv s) :=
  Node.WinsLe.intro _ (by simp [Node.fromState]) (by simp [Node.fromState])

theorem fromState_visitInv {σ μ π : Type} (g : Game σ μ π) (mv : Option μ) (s : σ) :
    VisitInv 0 (Node.fromState g mv s) := by
  refine VisitInv.intro _ _ ?_ ?_ ?_
  · intro hne
    exact absurd (by simp [Node.fromState]) hne
  · intro _ _
    simp [Node.fromState]
  · simp [Node.fromState]

/-- A one-ply test game on natural-number states, used to exercise the
engine on concrete runs: from state 0 the single legal move 0 leads to
state 1, which is a white win with no legal moves. -/
def G1 : Game Nat Nat Unit where
  get_plays := fun s => if s < 1 then [0] else []
  exec_move := fun s _ => s + 1
  player1_turn := fun s => decide (s % 2 = 0)
  white_win := fun s => decide (1 ≤ s)
  black_win := fun _ => false
  index := fun m => m
  get_numpy_board := fun _ => ()

/-- The constant-zero selection policy used in concrete runs. -/
def sel0 : Node Nat → Nat := fun _ => 0

/-- The constant-zero random stream used in concrete runs. -/
def r0 : Nat → Nat := fun _ => 0

/-- C7: on a terminal root state (no legal moves, a terminal flag set),
every iteration count completes without error, each iteration
backpropagating the same terminal outcome to the root only (the final
root holds itermax visits, itermax times the terminal result, and no
children), and the returned ranked list is empty; moreover a search of
zero iterations returns an empty ranked list from every root state. -/
theorem claim_C7 {σ μ π : Type} [DecidableEq μ] (g : Game σ μ π) (sel : Node μ → Nat)
    (r : Nat → Nat) (rfuel : Nat) (root : σ)
    (hterm : g.white_win root = true ∨ g.black_win root = true)
    (hplays : g.get_plays root = []) :
    (∀ itermax k : Nat,
      uctLoop g sel r rfuel (itermax + 1) itermax (Node.fromState g none root) root k =
        some (Node.mk none (itermax * resultOf g root) itermax [] (g.player1_turn root) [], k) ∧
      UCTgen g sel r rfuel root itermax k = some ([], k)) ∧
    (∀ (s : σ) (k : Nat), UCTgen g sel r rfuel s 0 k = some (([] : List (Node μ)), k)) := by
  have hterm' : ¬(g.white_win root = false ∧ g.black_win root = false) := by
    rcases hterm with hterm | hterm <;> rw [hterm] <;> simp
  constructor
  · intro itermax k
    have hfrom : Node.fromState g none root =
        Node.mk none 0 0 [] (g.player1_turn root) [] := by
      simp [Node.fromState, hplays]
    have hloop := uctLoop_terminal_root g sel r rfuel (itermax + 1) root hterm' itermax
      (by omega) 0 0 (g.player1_turn root) k
    rw [hfrom]
    simp only [Nat.zero_add] at hloop
    refine ⟨hloop, ?_⟩
    unfold UCTgen
    rw [hfrom, hloop]
    simp [pySorted]
  · intro s k
    unfold UCTgen
    rw [uctLoop_zero]
    simp [Node.fromState, pySorted]

/-- C7 witness: the test game at its terminal state 1. -/
theorem claim_C7_witness :
    (G1.white_win 1 = true ∨ G1.black_win 1 = true) ∧ G1.get_plays 1 = [] ∧
    ((∀ itermax k : Nat,
      uctLoop G1 sel0 r0 5 (itermax + 1) itermax (Node.fromState G1 none 1) 1 k =
        some (Node.mk none (itermax * resultOf G1 1) itermax [] (G1.player1_turn 1) [], k) ∧
      UCTgen G1 sel0 r0 5 1 itermax k = some ([], k)) ∧
    (∀ (s k : Nat), UCTgen G1 sel0 r0 5 s 0 k = some (([] : List (Node Nat)), k))) :=
  ⟨by decide, by decide, claim_C7 G1 sel0 r0 5 1 (by decide) (by decide)⟩

/-- C10: from a non-terminal root with at least one legal move, a search
of at least one completed iteration returns a non-empty ranked list: the
first iteration expands a child of the root and the child count of the
root never decreases. -/
theorem claim_C10 {σ μ π : Type} [DecidableEq μ] (g : Game σ μ π) (sel : Node μ → Nat)
    (r : Nat → Nat) (rfuel : Nat) (root : σ) (itermax k : Nat) (cs : List (Node μ)) (k' : Nat)
    (hplays : g.get_plays root ≠ []) (hit : 1 ≤ itermax)
    (h : UCTgen g sel r rfuel root itermax k = some (cs, k')) : cs ≠ [] := by
  rcases UCTgen_some h with ⟨T, hloop, hcs⟩
  cases itermax with
  | zero => exact absurd hit (by omega)
  | succ i =>
    have hT : T.childNodes ≠ [] := by
      refine uctLoop_nonempty i _ root k T k' hloop ?_
      simpa [Node.fromState] using hplays
    intro hnil
    rw [hnil] at hcs
    have hlen := (pySorted_perm (fun c : Node μ => c.visits) T.childNodes).length_eq
    rw [← hcs] at hlen
    simp only [List.length_nil] at hlen
    exact hT (List.length_eq_zero.mp hlen.symm)

/-- C10 witness: one iteration on the non-terminal test-game root. -/
theorem claim_C10_witness :
    G1.get_plays 0 ≠ [] ∧
    UCTgen G1 sel0 r0 5 0 1 0 = some ([Node.mk (some 0) 0 1 [] false []], 1) ∧
    ([Node.mk (some 0) 0 1 [] false []] : List (Node Nat)) ≠ [] :=
  ⟨by decide, by rfl,
    claim_C10 G1 sel0 r0 5 0 1 0 [Node.mk (some 0) 0 1 [] false []] 1 (by decide)
      (by decide) (by rfl)⟩

/-- C4: after any number of completed iterations from a fresh root, every
node of the tree has only children with visit count at least one; in
particular at every node where selection applies (fully expanded with
children) no child has visit count zero, so the division of
UCTSelectChild by a child visit count is never a division by zero.
Selection in an iteration only ever reads nodes of the tree produced by
the previous iterations, so this invariant covers every selection point
of a run. -/
theorem claim_C4 {σ μ π : Type} [DecidableEq μ] (g : Game σ μ π) (sel : Node μ → Nat)
    (r : Nat → Nat) (rfuel dfuel : Nat) (root : σ) (i k : Nat) (T : Node μ) (k' : Nat)
    (h : uctLoop g sel r rfuel dfuel i (Node.fromState g none root) root k = some (T, k')) :
    ∀ n, InTree n T → (∀ c ∈ n.childNodes, 1 ≤ c.visits) ∧
      (n.untriedMoves = [] → n.childNodes ≠ [] → ∀ c ∈ n.childNodes, c.visits ≠ 0) := by
  intro n hn
  have hA : Node.AllPos T :=
    uctLoop_preserve (fun d n0 s0 k0 n0' res0 k0' hs hp =>
      simulate_allPos d n0 s0 k0 n0' res0 k0' hs hp) i _ root k T k' h
      (fromState_allPos g none root)
  have hpos := allPos_inTree hA hn
  refine ⟨hpos, fun _ _ c hc => ?_⟩
  have := hpos c hc
  omega

/-- C4 witness: a two-iteration run on the test game. -/
theorem claim_C4_witness :
    uctLoop G1 sel0 r0 5 3 2 (Node.fromState G1 none 0) 0 0 =
      some (Node.mk none 0 2 [] true [Node.mk (some 0) 0 2 [] false []], 1) ∧
    (∀ n, InTree n (Node.mk none 0 2 [] true [Node.mk (some 0) 0 2 [] false []] : Node Nat) →
      (∀ c ∈ n.childNodes, 1 ≤ c.visits) ∧
      (n.untriedMoves = [] → n.childNodes ≠ [] → ∀ c ∈ n.childNodes, c.visits ≠ 0)) :=
  ⟨by rfl, claim_C4 G1 sel0 r0 5 3 0 2 0 _ 1 (by rfl)⟩

/-- C9: after any number of completed iterations, every node of the tree
has a win accumulator between zero and its visit count: each update adds
one visit and a result in the unit interval (here 0 or 1, the coerced
booleans white_win and black_win). -/
theorem claim_C9 {σ μ π : Type} [DecidableEq μ] (g : Game σ μ π) (sel : Node μ → Nat)
    (r : Nat → Nat) (rfuel dfuel : Nat) (root : σ) (i k : Nat) (T : Node μ) (k' : Nat)
    (h : uctLoop g sel r rfuel dfuel i (Node.fromState g none root) root k = some (T, k')) :
    ∀ n, InTree n T → 0 ≤ n.wins ∧ n.wins ≤ n.visits := by
  intro n hn
  have hW : Node.WinsLe T :=
    uctLoop_preserve (fun d n0 s0 k0 n0' res0 k0' hs hp =>
      simulate_winsLe d n0 s0 k0 n0' res0 k0' hs hp) i _ root k T k' h
      (fromState_winsLe g none root)
  exact ⟨Nat.zero_le _, winsLe_inTree hW hn⟩

/-- C9 witness: a two-iteration run on the test game. -/
theorem claim_C9_witness :
    uctLoop G1 sel0 r0 5 3 2 (Node.fromState G1 none 0) 0 0 =
      some (Node.mk none 0 2 [] true [Node.mk (some 0) 0 2 [] false []], 1) ∧
    (∀ n, InTree n (Node.mk none 0 2 [] true [Node.mk (some 0) 0 2 [] false []] : Node Nat) →
      0 ≤ n.wins ∧ n.wins ≤ n.visits) :=
  ⟨by rfl, claim_C9 G1 sel0 r0 5 3 0 2 0 _ 1 (by rfl)⟩

/-- C5 counterexample: after two completed iterations of the test game,
the root is fully expanded (no untried moves) but the sum of the visit
counts of its children is 2 while its own visit count minus one is 1: the
iteration that expands a child of the root increments the counts of the
root and of the new child together, so the root satisfies sum = visits,
not sum = visits - 1. -/
theorem claim_C5_counterexample :
    uctLoop G1 sel0 r0 5 3 2 (Node.fromState G1 none 0) 0 0 =
      some (Node.mk none 0 2 [] true [Node.mk (some 0) 0 2 [] false []], 1) ∧
    (Node.mk none 0 2 [] true [Node.mk (some 0) 0 2 [] false []] : Node Nat).untriedMoves
      = [] ∧
    childVisitSum (Node.mk none 0 2 [] true [Node.mk (some 0) 0 2 [] false []] : Node Nat) ≠
      (Node.mk none 0 2 [] true [Node.mk (some 0) 0 2 [] false []] : Node Nat).visits - 1 :=
  ⟨by rfl, by rfl, by decide⟩

/-- C5 amended: after any number of completed iterations, a fully
expanded node with at least one child satisfies: sum of child visit
counts equals its own visit count minus one when the node is a strict
descendant of the root (such a node was created by an expansion, which
contributed its first visit without passing through a child), while the
root itself satisfies sum of child visit counts equal to its own visit
count; a childless node has child visit sum zero. -/
theorem claim_C5_amended {σ μ π : Type} [DecidableEq μ] (g : Game σ μ π) (sel : Node μ → Nat)
    (r : Nat → Nat) (rfuel dfuel : Nat) (root : σ) (i k : Nat) (T : Node μ) (k' : Nat)
    (h : uctLoop g sel r rfuel dfuel i (Node.fromState g none root) root k = some (T, k')) :
    (T.untriedMoves = [] → T.childNodes ≠ [] → childVisitSum T = T.visits) ∧
    (∀ n, InTree n T → n ≠ T → n.untriedMoves = [] → n.childNodes ≠ [] →
      childVisitSum n + 1 = n.visits) ∧
    (∀ n, InTree n T → n.childNodes = [] → childVisitSum n = 0) := by
  have hV : VisitInv 0 T :=
    uctLoop_preserve (fun d n0 s0 k0 n0' res0 k0' hs hp =>
      simulate_visitInv d 0 n0 s0 k0 n0' res0 k0' hs hp) i _ root k T k' h
      (fromState_visitInv g none root)
  refine ⟨?_, ?_, ?_⟩
  · intro _ hc
    have := hV.sum hc
    omega
  · intro n hn hne _ hc
    rcases visitInv_inTree hV hn with hn' | hn'
    · exact absurd hn' hne
    · exact hn'.sum hc
  · intro n _ hc
    simp [childVisitSum, hc]

/-- C5 amended witness: the two-iteration run of the test game. -/
theorem claim_C5_amended_witness :
    uctLoop G1 sel0 r0 5 3 2 (Node.fromState G1 none 0) 0 0 =
      some (Node.mk none 0 2 [] true [Node.mk (some 0) 0 2 [] false []], 1) ∧
    ((Node.mk none 0 2 [] true [Node.mk (some 0) 0 2 [] false []] : Node Nat).untriedMoves
        = [] →
      (Node.mk none 0 2 [] true [Node.mk (some 0) 0 2 [] false []] : Node Nat).childNodes
        ≠ [] →
      childVisitSum (Node.mk none 0 2 [] true [Node.mk (some 0) 0 2 [] false []] : Node Nat) =
        (Node.mk none 0 2 [] true [Node.mk (some 0) 0 2 [] false []] : Node Nat).visits) :=
  ⟨by rfl, (claim_C5_amended G1 sel0 r0 5 3 0 2 0 _ 1 (by rfl)).1⟩

/-- C2: a successful search iteration determines one scalar result from
the terminal state its rollout reached (white_win as 0/1 when the turn
owner of that terminal state is player 1, else black_win as 0/1) and
updates every node on the path from the expanded node up to and including
the node the iteration started from with that same scalar, with no
per-node perspective flip (the BackProp relation applies the same res at
every level). -/
theorem claim_C2 {σ μ π : Type} [DecidableEq μ] (g : Game σ μ π) (sel : Node μ → Nat)
    (r : Nat → Nat) (rfuel d : Nat) (n : Node μ) (s : σ) (k : Nat) (n' : Node μ) (res k' : Nat)
    (h : simulate g sel r rfuel d n s k = some (n', res, k')) :
    (∃ t : σ, (g.white_win t = true ∨ g.black_win t = true) ∧ res = resultOf g t) ∧
      BackProp res n n' :=
  simulate_backProp d n s k n' res k' h

/-- C2 witness: the first iteration of the test game. -/
theorem claim_C2_witness :
    simulate G1 sel0 r0 5 3 (Node.fromState G1 none 0) 0 0 =
      some (Node.mk none 0 1 [] true [Node.mk (some 0) 0 1 [] false []], 0, 1) ∧
    ((∃ t : Nat, (G1.white_win t = true ∨ G1.black_win t = true) ∧ 0 = resultOf G1 t) ∧
      BackProp 0 (Node.fromState G1 none 0)
        (Node.mk none 0 1 [] true [Node.mk (some 0) 0 1 [] false []])) :=
  ⟨by rfl, claim_C2 G1 sel0 r0 5 3 (Node.fromState G1 none 0) 0 0 _ 0 1 (by rfl)⟩

/-- C6 counterexample: the self-play loop body does not check the ranked
list before indexing it.  With an iteration budget of zero, the search on
the non-terminal test-game state 0 returns the empty ranked list, and the
driver step fails (None, the model of the IndexError of childNodes[-1] on
an empty list) instead of stopping for that step without producing an
example (which would yield the accumulated example list). -/
theorem claim_C6_counterexample :
    G1.white_win 0 = false ∧ G1.black_win 0 = false ∧
    UCTgen G1 sel0 r0 5 0 0 0 = some (([] : List (Node Nat)), 0) ∧
    playGame G1 sel0 r0 5 0 1 0 0 [] = none ∧
    (playGame G1 sel0 r0 5 0 1 0 0 [] ≠ some []) :=
  ⟨by decide, by decide, by rfl, by rfl, by
    intro hcon
    rw [show playGame G1 sel0 r0 5 0 1 0 0 [] = none from rfl] at hcon
    exact Option.noConfusion hcon⟩

/-- C6 amended: the driver indexes the last element of the ranked list
without an emptiness check; whenever the list returned by the search for
a non-terminal state is empty, the driver step fails (None) rather than
stopping gracefully.  (Under the game contract a non-terminal state has a
legal move, so with an iteration budget of at least one the empty case
never arises in the loop.) -/
theorem claim_C6_amended {σ μ π : Type} [DecidableEq μ] (g : Game σ μ π) (sel : Node μ → Nat)
    (r : Nat → Nat) (rfuel im gf : Nat) (game : σ) (k k' : Nat) (acc : List (List ℚ × π))
    (hw : g.white_win game = false) (hb : g.black_win game = false)
    (h : UCTgen g sel r rfuel game im k = some ([], k')) :
    playGame g sel r rfuel im (gf + 1) game k acc = none := by
  simp [playGame, hw, hb, h]

/-- C6 amended witness: the zero-budget search on the test game. -/
theorem claim_C6_amended_witness :
    G1.white_win 0 = false ∧ G1.black_win 0 = false ∧
    UCTgen G1 sel0 r0 5 0 0 0 = some (([] : List (Node Nat)), 0) ∧
    playGame G1 sel0 r0 5 0 (0 + 1) 0 0 [] = none :=
  ⟨by decide, by decide, by rfl,
    claim_C6_amended G1 sel0 r0 5 0 0 0 0 0 [] (by decide) (by decide) (by rfl)⟩

/-- C3: for a node with a non-empty child list all of whose children have
visit count at least one, UCTSelectChild returns a child of maximal UCB1
score wins/visits + sqrt(2 ln(parent.visits)/visits); among children of
equal maximal score it returns the one latest in insertion order: the
child list decomposes as l1 ++ x :: l2 where x is the returned child,
every child scores at most the score of x, and every element of l2 (the
children after x in insertion order) scores strictly below x.  The
function is pure by construction: it reads the node and returns one of
its existing children, mutating nothing. -/
theorem claim_C3 {μ : Type} (n : Node μ) (hne : n.childNodes ≠ [])
    (_hpos : ∀ c ∈ n.childNodes, 1 ≤ c.visits) :
    ∃ x l1 l2, n.UCTSelectChild = some x ∧ n.childNodes = l1 ++ x :: l2 ∧
      x ∈ n.childNodes ∧
      (∀ c ∈ n.childNodes, ucb1Score n.visits c ≤ ucb1Score n.visits x) ∧
      (∀ c ∈ l2, ucb1Score n.visits c < ucb1Score n.visits x) := by
  rcases pySorted_getLast_spec (ucb1Score n.visits) n.childNodes hne with
    ⟨x, l1, l2, hlast, hdec, hle, hlt⟩
  refine ⟨x, l1, l2, hlast, hdec, ?_, ?_, hlt⟩
  · rw [hdec]
    exact List.mem_append.mpr (Or.inr (by simp))
  · intro c hc
    rw [hdec] at hc
    rcases List.mem_append.mp hc with hc | hc
    · exact hle c hc
    · rcases List.mem_cons.mp hc with hc | hc
      · subst hc; exact le_refl _
      · exact le_of_lt (hlt c hc)

/-- C3 witness: a node with two once-visited children. -/
theorem claim_C3_witness :
    (Node.mk none 1 3 [] true [Node.mk (some 1) 1 1 [] false [],
        Node.mk (some 2) 0 1 [] false []] : Node Nat).childNodes ≠ [] ∧
    (∀ c ∈ (Node.mk none 1 3 [] true [Node.mk (some 1) 1 1 [] false [],
        Node.mk (some 2) 0 1 [] false []] : Node Nat).childNodes, 1 ≤ c.visits) ∧
    (∃ x l1 l2,
      (Node.mk none 1 3 [] true [Node.mk (some 1) 1 1 [] false [],
        Node.mk (some 2) 0 1 [] false []] : Node Nat).UCTSelectChild = some x ∧
      (Node.mk none 1 3 [] true [Node.mk (some 1) 1 1 [] false [],
        Node.mk (some 2) 0 1 [] false []] : Node Nat).childNodes = l1 ++ x :: l2 ∧
      x ∈ (Node.mk none 1 3 [] true [Node.mk (some 1) 1 1 [] false [],
        Node.mk (some 2) 0 1 [] false []] : Node Nat).childNodes ∧
      (∀ c ∈ (Node.mk none 1 3 [] true [Node.mk (some 1) 1 1 [] false [],
        Node.mk (some 2) 0 1 [] false []] : Node Nat).childNodes,
        ucb1Score 3 c ≤ ucb1Score 3 x) ∧
      (∀ c ∈ l2, ucb1Score 3 c < ucb1Score 3 x)) :=
  ⟨by simp, by decide,
    claim_C3 (Node.mk none 1 3 [] true [Node.mk (some 1) 1 1 [] false [],
      Node.mk (some 2) 0 1 [] false []]) (by simp) (by decide)⟩

/-- The index form of UCTSelectChild used to instantiate the engine:
indexing the children at uctSelIdx gives exactly the child UCTSelectChild
returns, and the index is in range, for a non-empty child list. -/
theorem uctSelIdx_spec {μ : Type} (n : Node μ) (hne : n.childNodes ≠ []) :
    n.childNodes[uctSelIdx n]? = n.UCTSelectChild ∧ uctSelIdx n < n.childNodes.length := by
  have hmap : (pySorted (fun p : Nat × Node μ => ucb1Score n.visits p.2)
      n.childNodes.enum).map Prod.snd =
      pySorted (ucb1Score n.visits) n.childNodes := by
    rw [pySorted_map (ucb1Score n.visits) Prod.snd n.childNodes.enum, List.enum_map_snd]
  have henne : n.childNodes.enum ≠ [] := by
    intro hcon
    have := List.enum_length (l := n.childNodes)
    rw [hcon] at this
    simp at this
    exact hne (List.length_eq_zero.mp this.symm)
  rcases pySorted_getLast_spec (fun p : Nat × Node μ => ucb1Score n.visits p.2)
      n.childNodes.enum henne with ⟨p, l1, l2, hlast, hdec, hle, hlt⟩
  have hpmem : p ∈ n.childNodes.enum :=
    (pySorted_perm _ _).mem_iff.mp (List.mem_of_mem_getLast? hlast)
  rcases List.mem_enum hpmem with ⟨hplt, hpeq⟩
  have hsel : uctSelIdx n = p.1 := by
    unfold uctSelIdx
    rw [hlast]
    rfl
  have hchild : n.UCTSelectChild = some p.2 := by
    unfold Node.UCTSelectChild
    rw [← hmap, List.getLast?_map, hlast]
    rfl
  constructor
  · rw [hsel, hchild, List.getElem?_eq_getElem hplt, ← hpeq]
  · rw [hsel]; exact hplt

/-- C1: a successful search returns exactly the child list of the final
root sorted ascending by visit count — a permutation of all immediate
children of the root, pairwise ascending in visit count, whose last
element has maximal visit count — and one step of the self-play loop
plays the move of the last element of that list, advancing the real game
state with that move. -/
theorem claim_C1 {σ μ π : Type} [DecidableEq μ] (g : Game σ μ π) (sel : Node μ → Nat)
    (r : Nat → Nat) (rfuel : Nat) (root : σ) (itermax k : Nat) (cs : List (Node μ)) (k' : Nat)
    (h : UCTgen g sel r rfuel root itermax k = some (cs, k')) :
    (∃ T : Node μ,
      uctLoop g sel r rfuel (itermax + 1) itermax (Node.fromState g none root) root k =
        some (T, k') ∧ cs = pySorted (fun c => c.visits) T.childNodes ∧
      cs.Perm T.childNodes ∧ cs.Pairwise (fun a b => a.visits ≤ b.visits)) ∧
    (∀ c, cs.getLast? = some c → ∀ x ∈ cs, x.visits ≤ c.visits) ∧
    (∀ (gf : Nat) (acc : List (List ℚ × π)) (c : Node μ) (m : μ) (pol : List ℚ),
      g.white_win root = false → g.black_win root = false →
      cs.getLast? = some c → c.move = some m →
      writePolicy g cs (List.replicate 1575 (-1 : ℚ)) = some pol →
      playGame g sel r rfuel itermax (gf + 1) root k acc =
        playGame g sel r rfuel itermax gf (g.exec_move root m) k'
          (acc ++ [(pol, g.get_numpy_board root)])) := by
  rcases UCTgen_some h with ⟨T, hloop, hcs⟩
  have hpairwise : cs.Pairwise (fun a b => a.visits ≤ b.visits) := by
    rw [hcs]
    exact pySorted_pairwise (fun c : Node μ => c.visits) T.childNodes
  refine ⟨⟨T, hloop, hcs, ?_, hpairwise⟩, ?_, ?_⟩
  · rw [hcs]
    exact pySorted_perm (fun c : Node μ => c.visits) T.childNodes
  · intro c hlast x hx
    exact pairwise_getLast_max (fun c : Node μ => c.visits) cs c hpairwise hlast x hx
  · intro gf acc c m pol hw hb hlast hm hpol
    simp only [playGame]
    rw [if_pos ⟨hw, hb⟩]
    simp only [h, hlast, hm, hpol]

/-- C1 witness: a one-iteration search on the test game and the self-play
step it induces. -/
theorem claim_C1_witness :
    UCTgen G1 sel0 r0 5 0 1 0 = some ([Node.mk (some 0) 0 1 [] false []], 1) ∧
    ((∃ T : Node Nat,
      uctLoop G1 sel0 r0 5 2 1 (Node.fromState G1 none 0) 0 0 = some (T, 1) ∧
      [Node.mk (some 0) 0 1 [] false []] = pySorted (fun c => c.visits) T.childNodes ∧
      ([Node.mk (some 0) 0 1 [] false []] : List (Node Nat)).Perm T.childNodes ∧
      ([Node.mk (some 0) 0 1 [] false []] : List (Node Nat)).Pairwise
        (fun a b => a.visits ≤ b.visits)) ∧
    (∀ c, ([Node.mk (some 0) 0 1 [] false []] : List (Node Nat)).getLast? = some c →
      ∀ x ∈ ([Node.mk (some 0) 0 1 [] false []] : List (Node Nat)), x.visits ≤ c.visits) ∧
    (∀ (gf : Nat) (acc : List (List ℚ × Unit)) (c : Node Nat) (m : Nat) (pol : List ℚ),
      G1.white_win 0 = false → G1.black_win 0 = false →
      ([Node.mk (some 0) 0 1 [] false []] : List (Node Nat)).getLast? = some c →
      c.move = some m →
      writePolicy G1 [Node.mk (some 0) 0 1 [] false []]
        (List.replicate 1575 (-1 : ℚ)) = some pol →
      playGame G1 sel0 r0 5 1 (gf + 1) 0 0 acc =
        playGame G1 sel0 r0 5 1 gf (G1.exec_move 0 m) 1
          (acc ++ [(pol, G1.get_numpy_board 0)]))) :=
  ⟨by rfl, claim_C1 G1 sel0 r0 5 0 1 0 [Node.mk (some 0) 0 1 [] false []] 1 (by rfl)⟩

theorem ratio_ne_sentinel (w v : Nat) : ((w : ℚ) / (v : ℚ)) ≠ -1 := by
  intro hcon
  have h0 : (0 : ℚ) ≤ (w : ℚ) / (v : ℚ) := div_nonneg (by positivity) (by positivity)
  rw [hcon] at h0
  norm_num at h0

theorem all_some_eq_filterMap {α : Type} (l : List (Option α))
    (h : ∀ x ∈ l, ∃ a, x = some a) : l = (l.filterMap id).map some := by
  induction l with
  | nil => simp
  | cons x t ih =>
    rcases h x (by simp) with ⟨a, ha⟩
    subst ha
    simp only [List.filterMap_cons, id]
    rw [List.map_cons]
    rw [← ih (fun y hy => h y (by simp [hy]))]

/-- Full behaviour of the policy-vector write loop: given the list of
(actual) moves the children carry, with pairwise distinct in-range
indices aiming at sentinel entries, the loop succeeds, preserves the
length, writes the win rate of each child at the index of its move,
leaves every other entry unchanged, and turns exactly one sentinel entry
non-sentinel per child. -/
theorem writePolicy_spec {σ μ π : Type} (g : Game σ μ π) :
    ∀ (cs : List (Node μ)) (ms : List μ) (acc : List ℚ),
      cs.map Node.move = ms.map some →
      (ms.map g.index).Nodup →
      (∀ m ∈ ms, g.index m < acc.length) →
      (∀ m ∈ ms, acc[g.index m]? = some (-1 : ℚ)) →
      ∃ res, writePolicy g cs acc = some res ∧ res.length = acc.length ∧
        (∀ j : Nat, (∀ m ∈ ms, g.index m ≠ j) → res[j]? = acc[j]?) ∧
        (∀ c ∈ cs, ∀ mv, c.move = some mv →
          res[g.index mv]? = some ((c.wins : ℚ) / (c.visits : ℚ))) ∧
        res.countP (fun q => !(q == (-1 : ℚ))) =
          acc.countP (fun q => !(q == (-1 : ℚ))) + ms.length := by
  intro cs
  induction cs with
  | nil =>
    intro ms acc hmap hnd hlt hsent
    have hms : ms = [] := by
      cases ms with
      | nil => rfl
      | cons m t => simp at hmap
    subst hms
    exact ⟨acc, rfl, rfl, fun j _ => rfl, by simp, by simp⟩
  | cons c cs ih =>
    intro ms acc hmap hnd hlt hsent
    cases ms with
    | nil => simp at hmap
    | cons m ms =>
      simp only [List.map_cons, List.cons.injEq] at hmap
      rcases hmap with ⟨hcm, hmap⟩
      have him : g.index m < acc.length := hlt m (by simp)
      rcases List.getElem?_eq_some.mp (hsent m (by simp)) with ⟨him2, hval⟩
      simp only [List.map_cons, List.nodup_cons] at hnd
      rcases hnd with ⟨hmnotin, hndtail⟩
      rcases ih ms (acc.set (g.index m) ((c.wins : ℚ) / (c.visits : ℚ)))
        hmap hndtail
        (fun m' hm' => by rw [List.length_set]; exact hlt m' (by simp [hm']))
        (fun m' hm' => by
          have hne : g.index m ≠ g.index m' := by
            intro hcon
            exact hmnotin (hcon ▸ List.mem_map.mpr ⟨m', hm', rfl⟩)
          rw [List.getElem?_set_ne hne]
          exact hsent m' (by simp [hm'])) with
        ⟨res, hwp, hlen, hout, hin, hcount⟩
      refine ⟨res, ?_, ?_, ?_, ?_, ?_⟩
      · simp only [writePolicy, hcm]
        exact hwp
      · rw [hlen, List.length_set]
      · intro j hj
        have hmj : g.index m ≠ j := hj m (by simp)
        rw [hout j (fun m' hm' => hj m' (by simp [hm']))]
        exact List.getElem?_set_ne hmj
      · intro c0 hc0 mv hmv
        rcases List.mem_cons.mp hc0 with hc0 | hc0
        · subst hc0
          rw [hcm] at hmv
          cases hmv
          have hnotin : ∀ m' ∈ ms, g.index m' ≠ g.index m := by
            intro m' hm' hcon
            exact hmnotin (hcon ▸ List.mem_map.mpr ⟨m', hm', rfl⟩)
          rw [hout (g.index m) hnotin]
          exact List.getElem?_set_self him
        · exact hin c0 hc0 mv hmv
      · rw [hcount]
        have hset := List.countP_set (fun q : ℚ => !(q == (-1 : ℚ))) acc (g.index m)
          ((c.wins : ℚ) / (c.visits : ℚ)) him
        have h1 : (!((-1 : ℚ) == (-1 : ℚ))) = false := by simp
        have h2 : (!(((c.wins : ℚ) / (c.visits : ℚ)) == (-1 : ℚ))) = true := by
          have := ratio_ne_sentinel c.wins c.visits
          simp [this]
        rw [hset, hval, h1, h2]
        simp only [List.length_cons]
        simp
        omega

/-- C8: from the ranked list of a successful search with injective
in-range move indices, the policy write succeeds and produces a vector of
fixed length 1575 in which the entry at the index of the move of each
ranked child is that child's win rate wins/visits, every other entry is
the sentinel -1.0, the number of non-sentinel entries equals the number
of root children created, and that number is at most
min(iteration count, number of legal root moves). -/
theorem claim_C8 {σ μ π : Type} [DecidableEq μ] (g : Game σ μ π) (sel : Node μ → Nat)
    (r : Nat → Nat) (rfuel : Nat) (root : σ) (itermax k : Nat) (cs : List (Node μ)) (k' : Nat)
    (h : UCTgen g sel r rfuel root itermax k = some (cs, k'))
    (hnd : (g.get_plays root).Nodup)
    (hinj : ∀ m1 ∈ g.get_plays root, ∀ m2 ∈ g.get_plays root,
      g.index m1 = g.index m2 → m1 = m2)
    (hbound : ∀ m ∈ g.get_plays root, g.index m < 1575) :
    ∃ pol, writePolicy g cs (List.replicate 1575 (-1 : ℚ)) = some pol ∧
      pol.length = 1575 ∧
      (∀ c ∈ cs, ∀ mv, c.move = some mv →
        pol[g.index mv]? = some ((c.wins : ℚ) / (c.visits : ℚ))) ∧
      (∀ j : Nat, j < 1575 → (∀ c ∈ cs, ∀ mv, c.move = some mv → g.index mv ≠ j) →
        pol[j]? = some (-1 : ℚ)) ∧
      pol.countP (fun q => !(q == (-1 : ℚ))) = cs.length ∧
      cs.length ≤ min itermax (g.get_plays root).length := by
  rcases UCTgen_some h with ⟨T, hloop, hcs⟩
  have hR : RootMoves (g.get_plays root) T :=
    uctLoop_preserve (fun d n0 s0 k0 n0' res0 k0' hs hp =>
      simulate_rootMoves d n0 s0 k0 n0' res0 k0' hs hp) itermax _ root k T k' hloop
      (fromState_rootMoves g root)
  rcases hR with ⟨ms, hmapT, hperm⟩
  have hTcs : cs.Perm T.childNodes := by
    rw [hcs]
    exact pySorted_perm (fun c : Node μ => c.visits) T.childNodes
  -- every move of a ranked child is an actual move
  have hallsome : ∀ x ∈ cs.map Node.move, ∃ a, x = some a := by
    intro x hx
    have hx2 : x ∈ T.childNodes.map Node.move := (hTcs.map Node.move).mem_iff.mp hx
    rw [hmapT] at hx2
    rcases List.mem_map.mp hx2 with ⟨a, _, ha⟩
    exact ⟨a, ha.symm⟩
  have hcsmap : cs.map Node.move = (cs.filterMap Node.move).map some := by
    have h1 := all_some_eq_filterMap (cs.map Node.move) hallsome
    rw [h1, List.filterMap_map]
    simp
  have hmsC : (cs.filterMap Node.move).Perm ms := by
    have h1 : (cs.map Node.move).Perm (T.childNodes.map Node.move) := hTcs.map Node.move
    have h2 := h1.filterMap id
    rw [hmapT] at h2
    have h3 : (ms.map some).filterMap (id : Option μ → Option μ) = ms := by
      rw [List.filterMap_map]
      simp
    rw [h3] at h2
    have h4 : (cs.map Node.move).filterMap (id : Option μ → Option μ) =
        cs.filterMap Node.move := by
      rw [List.filterMap_map]
      simp
    rw [h4] at h2
    exact h2
  have hms_mem : ∀ m ∈ ms, m ∈ g.get_plays root := by
    intro m hm
    exact hperm.mem_iff.mp (List.mem_append.mpr (Or.inr hm))
  have hplaysidx : ((g.get_plays root).map g.index).Nodup := List.Nodup.map_on hinj hnd
  have hmsidx : (ms.map g.index).Nodup := by
    have h1 : ((T.untriedMoves ++ ms).map g.index).Perm ((g.get_plays root).map g.index) :=
      hperm.map g.index
    have h2 : ((T.untriedMoves ++ ms).map g.index).Nodup :=
      (h1.nodup_iff).mpr hplaysidx
    rw [List.map_append] at h2
    exact (List.nodup_append.mp h2).2.1
  have hmsCidx : ((cs.filterMap Node.move).map g.index).Nodup :=
    ((hmsC.map g.index).nodup_iff).mpr hmsidx
  have hmsC_mem : ∀ m ∈ cs.filterMap Node.move, m ∈ g.get_plays root := by
    intro m hm
    exact hms_mem m (hmsC.mem_iff.mp hm)
  rcases writePolicy_spec g cs (cs.filterMap Node.move) (List.replicate 1575 (-1 : ℚ))
    hcsmap hmsCidx
    (fun m hm => by
      rw [List.length_replicate]
      exact hbound m (hmsC_mem m hm))
    (fun m hm => by
      rw [List.getElem?_replicate, if_pos (hbound m (hmsC_mem m hm))]) with
    ⟨res, hwp, hlen, hout, hin, hcount⟩
  have hlenmsC : (cs.filterMap Node.move).length = cs.length := by
    have := congrArg List.length hcsmap
    simp only [List.length_map] at this
    exact this.symm
  refine ⟨res, hwp, by rw [hlen, List.length_replicate], hin, ?_, ?_, ?_⟩
  · intro j hj hnone
    have hnone' : ∀ m ∈ cs.filterMap Node.move, g.index m ≠ j := by
      intro m hm
      rcases List.mem_filterMap.mp hm with ⟨c0, hc0, hc0m⟩
      exact hnone c0 hc0 m hc0m
    rw [hout j hnone']
    rw [List.getElem?_replicate, if_pos hj]
  · rw [hcount, hlenmsC]
    have hc0 : (List.replicate 1575 (-1 : ℚ)).countP (fun q => !(q == (-1 : ℚ))) = 0 := by
      rw [List.countP_replicate]
      simp
    rw [hc0]
    omega
  · have hlen1 : cs.length = T.childNodes.length := hTcs.length_eq
    have hlen2 : T.childNodes.length = ms.length := by
      have := congrArg List.length hmapT
      simpa using this
    have hle1 : T.childNodes.length ≤ itermax := by
      have := uctLoop_len_le itermax _ root k T k' hloop
      simpa [Node.fromState] using this
    have hle2 : ms.length ≤ (g.get_plays root).length := by
      have := hperm.length_eq
      rw [List.length_append] at this
      omega
    refine le_min ?_ ?_
    · omega
    · omega

/-- C8 witness: a one-iteration search on the test game; the single legal
move has index 0 < 1575. -/
theorem claim_C8_witness :
    UCTgen G1 sel0 r0 5 0 1 0 = some ([Node.mk (some 0) 0 1 [] false []], 1) ∧
    (G1.get_plays 0).Nodup ∧
    (∃ pol, writePolicy G1 [Node.mk (some 0) 0 1 [] false []]
        (List.replicate 1575 (-1 : ℚ)) = some pol ∧
      pol.length = 1575 ∧
      (∀ c ∈ ([Node.mk (some 0) 0 1 [] false []] : List (Node Nat)), ∀ mv,
        c.move = some mv → pol[G1.index mv]? = some ((c.wins : ℚ) / (c.visits : ℚ))) ∧
      (∀ j : Nat, j < 1575 →
        (∀ c ∈ ([Node.mk (some 0) 0 1 [] false []] : List (Node Nat)), ∀ mv,
          c.move = some mv → G1.index mv ≠ j) →
        pol[j]? = some (-1 : ℚ)) ∧
      pol.countP (fun q => !(q == (-1 : ℚ))) =
        ([Node.mk (some 0) 0 1 [] false []] : List (Node Nat)).length ∧
      ([Node.mk (some 0) 0 1 [] false []] : List (Node Nat)).length ≤
        min 1 (G1.get_plays 0).length) :=
  ⟨by rfl, by decide,
    claim_C8 G1 sel0 r0 5 0 1 0 [Node.mk (some 0) 0 1 [] false []] 1 (by rfl) (by decide)
      (by decide) (by decide)⟩

end TakZero
